import Mathlib

/-!
Verification of the lighthouse block-replay engine and deposit verifier.

The development shallowly embeds two source files:

* `consensus/state_processing/src/block_replayer.rs` — the `BlockReplayer`
  builder, its `get_state_root` resolver and its `apply_blocks` driver.
* `consensus/state_processing/src/per_block_processing/verify_deposit.rs` —
  `is_valid_deposit_signature` and `verify_deposit_merkle_proof`.

External collaborators (`per_slot_processing`, `per_block_processing`,
`BeaconState::update_tree_hash_cache`, the BLS primitives, the merkle-proof
checker) are not part of the embedded sources; they are abstracted as fields
of an environment record.  Machine integers appear only in the deposit
verifier (`safe_add` over `u64`), modelled as `Nat` with an explicit
`2 ^ 64` overflow check.

Because Lean is pure, `&mut self` methods are threaded explicitly: each step
returns the updated replayer.  Hook invocations and calls of the external
transition functions are additionally recorded in an event trace so that
observable behaviour ("the post-block hook never fires for this block",
"every advanced slot is reported as skipped") can be stated; the trace is
instrumentation only and does not influence control flow.
-/

set_option autoImplicit false

namespace LighthouseProof

/-! ## Deposit verifier (`verify_deposit.rs`) -/

namespace DepositVerify

/-- State roots, pubkeys, signatures and messages are opaque values; we only
compare them, so `Nat` suffices. -/
abbrev Hash256 := Nat

/-- The fields of `DepositData` used by the verifier (raw bytes abstracted). -/
structure DepositData where
  pubkey : Nat
  withdrawal_credentials : Hash256
  amount : Nat
  signature : Nat
  deriving Repr, DecidableEq

/-- A deposit: a merkle branch plus the deposit data. -/
structure Deposit where
  proof : List Hash256
  data : DepositData
  deriving Repr, DecidableEq

/-- The part of `BeaconState` read by `verify_deposit_merkle_proof`:
`state.eth1_data().deposit_root`. -/
structure Eth1Data where
  deposit_root : Hash256
  deriving Repr, DecidableEq

structure BeaconState where
  eth1_data : Eth1Data
  deriving Repr, DecidableEq

/-- The part of `ChainSpec` used here.  `deposit_contract_tree_depth` is a
`u64` in the source; we hold it as a `Nat` known to be below `2 ^ 64`. -/
structure ChainSpec where
  deposit_contract_tree_depth : Nat
  deriving Repr, DecidableEq

/-- Error reasons of `DepositInvalid` relevant to the embedded functions. -/
inductive DepositInvalid where
  | BadBlsBytes
  | BadSignature
  | BadMerkleProof
  deriving Repr, DecidableEq

/-- `safe_arith::ArithError` values produced by `safe_add`. -/
inductive ArithError where
  | Overflow
  deriving Repr, DecidableEq

/-- The variants of `BlockOperationError` reachable from the embedded
functions: `invalid(reason)` and the `ArithError` conversion used by the
`?` on `safe_add`. -/
inductive BlockOperationError (T : Type) where
  | Invalid (reason : T)
  | Arith (e : ArithError)
  deriving Repr, DecidableEq

/-- `u64::safe_add`: checked addition failing with `Overflow` when the exact
sum does not fit in 64 bits. -/
def u64_safe_add (a b : Nat) : Except ArithError Nat :=
  if a + b < 2 ^ 64 then .ok (a + b) else .error .Overflow

/-- External collaborators of the deposit verifier:
`deposit_pubkey_signature_message` (byte decoding and domain-separated
signing-root computation), BLS signature verification, `tree_hash_root`
on `DepositData`, and `merkle_proof::verify_merkle_proof`. -/
structure CryptoEnv where
  deposit_pubkey_signature_message :
    DepositData → ChainSpec → Option (Nat × Nat × Nat)
  bls_verify : Nat → Nat → Nat → Bool
  tree_hash_root : DepositData → Hash256
  verify_merkle_proof : Hash256 → List Hash256 → Nat → Nat → Hash256 → Bool

/-- `error(reason)` helper of the source file. -/
def error (reason : DepositInvalid) : BlockOperationError DepositInvalid :=
  .Invalid reason

/-- Embedding of `is_valid_deposit_signature`.  The tuple returned by
`deposit_pubkey_signature_message` is `(public_key, signature, msg)` and
`signature.verify(&public_key, msg)` is `bls_verify signature public_key
msg`. -/
def is_valid_deposit_signature (env : CryptoEnv) (deposit_data : DepositData)
    (spec : ChainSpec) : Except (BlockOperationError DepositInvalid) Unit :=
  match env.deposit_pubkey_signature_message deposit_data spec with
  | none => .error (error .BadBlsBytes)
  | some (public_key, signature, msg) =>
    if env.bls_verify signature public_key msg then
      .ok ()
    else
      .error (error .BadSignature)

/-- Embedding of `verify_deposit_merkle_proof`.  The tree depth is
`spec.deposit_contract_tree_depth.safe_add(1)?`; the `?` converts an
`ArithError` into the aggregate error. -/
def verify_deposit_merkle_proof (env : CryptoEnv) (state : BeaconState)
    (deposit : Deposit) (deposit_index : Nat) (spec : ChainSpec) :
    Except (BlockOperationError DepositInvalid) Unit :=
  let leaf := env.tree_hash_root deposit.data
  match u64_safe_add spec.deposit_contract_tree_depth 1 with
  | .error e => .error (.Arith e)
  | .ok depth =>
    if env.verify_merkle_proof leaf deposit.proof depth deposit_index
        state.eth1_data.deposit_root then
      .ok ()
    else
      .error (error .BadMerkleProof)

end DepositVerify

/-! ## Block replayer (`block_replayer.rs`) -/

namespace Replay

abbrev Hash256 := Nat
abbrev Slot := Nat

/-- The fields of `SignedBeaconBlock` read by the replayer: `slot()`,
`state_root()` and `message().proposer_index()`. -/
structure SignedBeaconBlock where
  slot : Slot
  state_root : Hash256
  proposer_index : Nat
  deriving Repr, DecidableEq

/-- The `BlockSignatureStrategy` values the replayer manipulates:
`VerifyBulk` (the construction default) and `NoVerification` (set by
`no_signature_verification`). -/
inductive BlockSignatureStrategy where
  | VerifyBulk
  | NoVerification
  deriving Repr, DecidableEq

/-- `VerifyBlockRoot` flag passed to `per_block_processing`. -/
inductive VerifyBlockRoot where
  | True
  | False
  deriving Repr, DecidableEq

/-- `ConsensusContext` as used by the replayer: created with
`ConsensusContext::new(block.slot())` and pre-seeded with
`set_proposer_index`. -/
structure ConsensusContext where
  slot : Slot
  proposer_index : Option Nat
  deriving Repr, DecidableEq

def ConsensusContext.new (slot : Slot) : ConsensusContext :=
  { slot := slot, proposer_index := none }

def ConsensusContext.set_proposer_index (c : ConsensusContext) (p : Nat) :
    ConsensusContext :=
  { c with proposer_index := some p }

/-- `BlockReplayError`: the tagged union over the three underlying failure
kinds, with `σ` = `SlotProcessingError`, `β` = `BlockProcessingError`,
`γ` = `BeaconStateError`. -/
inductive BlockReplayError (σ β γ : Type) where
  | SlotProcessing (e : σ)
  | BlockProcessing (e : β)
  | BeaconState (e : γ)
  deriving Repr, DecidableEq

/-- External collaborators of the replayer, over an abstract state type `St`
with an observable slot, a summary type `Sum` for epoch summaries, and the
three underlying error types.  `injErr` is the `Error: From<BlockReplayError>`
conversion.  Every `&mut` function returns the updated state. -/
structure Env (St Sum σ β γ ε : Type) where
  slotOf : St → Slot
  per_slot_processing : St → Option Hash256 → Except σ (St × Option Sum)
  per_block_processing :
    St → SignedBeaconBlock → BlockSignatureStrategy → VerifyBlockRoot →
      ConsensusContext → Except β St
  update_tree_hash_cache : St → Except γ (Hash256 × St)
  injErr : BlockReplayError σ β γ → ε

/-- The `BlockReplayer` struct.  Hooks are caller-supplied functions that may
mutate the state and fail with the caller's error type `ε`; the state-root
iterator is the remaining, not-yet-consumed part of the caller's lazy
sequence of `Result<(Hash256, Slot), Error>` items. -/
structure BlockReplayer (St Sum ε : Type) where
  state : St
  block_sig_strategy : BlockSignatureStrategy
  verify_block_root : Option VerifyBlockRoot
  pre_block_hook : Option (St → SignedBeaconBlock → Except ε St)
  post_block_hook : Option (St → SignedBeaconBlock → Except ε St)
  pre_slot_hook : Option (Hash256 → St → Except ε St)
  post_slot_hook : Option (St → Option Sum → Bool → Except ε St)
  state_root_iter : Option (List (Except ε (Hash256 × Slot)))
  state_root_miss : Bool

/-- `BlockReplayer::new`: defaults are bulk signature verification, full
block-root verification, no hooks, no state-root iterator, no miss. -/
def BlockReplayer.new {St Sum ε : Type} (state : St) : BlockReplayer St Sum ε :=
  { state := state
    block_sig_strategy := .VerifyBulk
    verify_block_root := some .True
    pre_block_hook := none
    post_block_hook := none
    pre_slot_hook := none
    post_slot_hook := none
    state_root_iter := none
    state_root_miss := false }

section Builder

variable {St Sum ε : Type}

/-- `block_signature_strategy` builder method. -/
def BlockReplayer.block_signature_strategy (r : BlockReplayer St Sum ε)
    (s : BlockSignatureStrategy) : BlockReplayer St Sum ε :=
  { r with block_sig_strategy := s }

/-- `no_signature_verification` builder method. -/
def BlockReplayer.no_signature_verification (r : BlockReplayer St Sum ε) :
    BlockReplayer St Sum ε :=
  r.block_signature_strategy .NoVerification

/-- `minimal_block_root_verification` builder method. -/
def BlockReplayer.minimal_block_root_verification (r : BlockReplayer St Sum ε) :
    BlockReplayer St Sum ε :=
  { r with verify_block_root := none }

/-- `state_root_iter` builder method. -/
def BlockReplayer.set_state_root_iter (r : BlockReplayer St Sum ε)
    (iter : List (Except ε (Hash256 × Slot))) : BlockReplayer St Sum ε :=
  { r with state_root_iter := some iter }

end Builder

section Engine

variable {St Sum σ β γ ε : Type}

/-- Which of the three return sites of `get_state_root` produced the root:
the state-root iterator, the previous block's declared state root, or the
direct `update_tree_hash_cache` recomputation (the "miss" path). -/
inductive RootPath where
  | fromIter
  | fromPrevBlock
  | computed
  deriving Repr, DecidableEq

/-- The iterator scan of `get_state_root`:

`state_root_iter.peeking_take_while(|res| res. ... s <= slot)
               .find(|res| res. ... s == slot).transpose()?`

Scanning consumes `Ok` entries whose slot is strictly below `slot`; an `Ok`
entry at exactly `slot` is consumed and returned; an `Ok` entry beyond
`slot` stops the scan unconsumed (it was only peeked); an `Err` entry is
consumed, selected by `find` (both predicates hold for errors) and then
propagated by `transpose()?`.  Returns the found root (if any) together
with the remaining iterator. -/
def find_root_in_iter (slot : Slot) :
    List (Except ε (Hash256 × Slot)) →
      Except ε (Option Hash256 × List (Except ε (Hash256 × Slot)))
  | [] => .ok (none, [])
  | .error e :: _ => .error e
  | .ok (root, s) :: rest =>
    if s < slot then find_root_in_iter slot rest
    else if s = slot then .ok (some root, rest)
    else .ok (none, .ok (root, s) :: rest)

/-- The fallback half of `get_state_root` (paths 2 and 3): try the previous
block (`i.checked_sub(1)` then `blocks.get(prev_i)` then slot comparison),
otherwise set the miss flag and recompute via `update_tree_hash_cache`,
mapping its error through `BlockReplayError::BeaconState`. -/
def get_state_root_fallback (env : Env St Sum σ β γ ε)
    (r : BlockReplayer St Sum ε) (blocks : List SignedBeaconBlock) (i : Nat)
    (slot : Slot) : Except ε (Hash256 × RootPath × BlockReplayer St Sum ε) :=
  match i, blocks[i - 1]? with
  | _ + 1, some prev_block =>
    if prev_block.slot = slot then
      .ok (prev_block.state_root, .fromPrevBlock, r)
    else
      match env.update_tree_hash_cache r.state with
      | .error e => .error (env.injErr (.BeaconState e))
      | .ok (state_root, st) =>
        .ok (state_root, .computed,
          { r with state := st, state_root_miss := true })
  | _, _ =>
    match env.update_tree_hash_cache r.state with
    | .error e => .error (env.injErr (.BeaconState e))
    | .ok (state_root, st) =>
      .ok (state_root, .computed,
        { r with state := st, state_root_miss := true })

/-- Embedding of `get_state_root`.  On success it returns the root, the
path that produced it (instrumentation identifying the source return site)
and the updated replayer (advanced iterator, possibly-set miss flag,
possibly-updated tree-hash caches). -/
def get_state_root (env : Env St Sum σ β γ ε) (r : BlockReplayer St Sum ε)
    (blocks : List SignedBeaconBlock) (i : Nat) :
    Except ε (Hash256 × RootPath × BlockReplayer St Sum ε) :=
  match r.state_root_iter with
  | some iter =>
    match find_root_in_iter (env.slotOf r.state) iter with
    | .error e => .error e
    | .ok (some root, rest) =>
      .ok (root, .fromIter, { r with state_root_iter := some rest })
    | .ok (none, rest) =>
      get_state_root_fallback env { r with state_root_iter := some rest }
        blocks i (env.slotOf r.state)
  | none => get_state_root_fallback env r blocks i (env.slotOf r.state)

/-- Observable events of an `apply_blocks` run.  Root resolutions and calls
of `per_block_processing` are always recorded; hook events are recorded
exactly when the corresponding hook is present (i.e. when the source would
invoke it).  Slots record the state's slot at the moment of the call. -/
inductive Event where
  | resolveRoot (path : RootPath) (root : Hash256)
  | preSlot (slot : Slot) (root : Hash256)
  | postSlot (slot : Slot) (skipped : Bool)
  | preBlock (i : Nat) (slot : Slot)
  | applyBlock (i : Nat) (slot : Slot) (strategy : BlockSignatureStrategy)
      (decision : VerifyBlockRoot) (ctxt : ConsensusContext)
  | postBlock (i : Nat) (slot : Slot)
  deriving Repr, DecidableEq

/-- Result of a (possibly fuelled) replay computation: success with the
updated replayer, failure with the caller's error, or fuel exhaustion
(`diverge`, marking a run of the source's unbounded `while` loop longer
than the supplied fuel). -/
inductive Outcome (ε α : Type) where
  | diverge
  | fail (e : ε)
  | ok (a : α)

/-- Tail of the slot-advancement body after the pre-slot hook: run
`per_slot_processing` with the resolved root, then fire the post-slot hook
with the skipped flag `skippedOf` of the post-state.  `evs0` is the trace
accumulated so far in this iteration. -/
def slot_step_core (env : Env St Sum σ β γ ε) (skippedOf : St → Bool)
    (state_root : Hash256) (evs0 : List Event) (r2 : BlockReplayer St Sum ε) :
    List Event × Outcome ε (BlockReplayer St Sum ε) :=
  match env.per_slot_processing r2.state (some state_root) with
  | .error e => (evs0, .fail (env.injErr (.SlotProcessing e)))
  | .ok (st, summary) =>
    match r2.post_slot_hook with
    | none => (evs0, .ok { r2 with state := st })
    | some hook =>
      match hook st summary (skippedOf st) with
      | .error e =>
        (evs0 ++ [.postSlot (env.slotOf st) (skippedOf st)], .fail e)
      | .ok st4 =>
        (evs0 ++ [.postSlot (env.slotOf st) (skippedOf st)],
          .ok { r2 with state := st4 })

/-- One iteration of the slot-advancement `while` body: resolve the state
root, fire the pre-slot hook, run `per_slot_processing` with the root, fire
the post-slot hook with the skipped flag `skippedOf` of the post-state. -/
def slot_step (env : Env St Sum σ β γ ε) (blocks : List SignedBeaconBlock)
    (i : Nat) (skippedOf : St → Bool) (r : BlockReplayer St Sum ε) :
    List Event × Outcome ε (BlockReplayer St Sum ε) :=
  match get_state_root env r blocks i with
  | .error e => ([], .fail e)
  | .ok (state_root, path, r1) =>
    match r1.pre_slot_hook with
    | none =>
      slot_step_core env skippedOf state_root
        [.resolveRoot path state_root] r1
    | some hook =>
      match hook state_root r1.state with
      | .error e =>
        ([.resolveRoot path state_root,
          .preSlot (env.slotOf r1.state) state_root], .fail e)
      | .ok st =>
        slot_step_core env skippedOf state_root
          [.resolveRoot path state_root,
            .preSlot (env.slotOf r1.state) state_root]
          { r1 with state := st }

/-- The slot-advancement `while` loop: run `slot_step` while the state's
slot is below `bound`, with `fuel` bounding the number of iterations. -/
def slot_loop (env : Env St Sum σ β γ ε) (blocks : List SignedBeaconBlock)
    (i : Nat) (bound : Slot) (skippedOf : St → Bool) :
    Nat → BlockReplayer St Sum ε →
      List Event × Outcome ε (BlockReplayer St Sum ε)
  | 0, r =>
    if env.slotOf r.state < bound then ([], .diverge) else ([], .ok r)
  | fuel + 1, r =>
    if env.slotOf r.state < bound then
      match slot_step env blocks i skippedOf r with
      | (evs, .ok r1) =>
        (evs ++ (slot_loop env blocks i bound skippedOf fuel r1).1,
          (slot_loop env blocks i bound skippedOf fuel r1).2)
      | (evs, out) => (evs, out)
    else ([], .ok r)

/-- The effective block-root verification decision at index `i`:
`self.verify_block_root.unwrap_or(if i <= 1 { True } else { False })`. -/
def effective_verify_block_root (r : BlockReplayer St Sum ε) (i : Nat) :
    VerifyBlockRoot :=
  r.verify_block_root.getD
    (if i ≤ 1 then VerifyBlockRoot.True else VerifyBlockRoot.False)

/-- The consensus context the replayer seeds for a block: new at the
block's slot, with the block's declared proposer index. -/
def replay_ctxt (block : SignedBeaconBlock) : ConsensusContext :=
  (ConsensusContext.new block.slot).set_proposer_index block.proposer_index

/-- Tail of the per-block body after the pre-block hook: effective
block-root decision, consensus context pre-seeded with the block's
proposer index, `per_block_processing`, post-block hook.  `evs0` is the
trace accumulated so far in this iteration. -/
def block_step_core (env : Env St Sum σ β γ ε) (i : Nat)
    (block : SignedBeaconBlock) (evs0 : List Event)
    (r1 : BlockReplayer St Sum ε) :
    List Event × Outcome ε (BlockReplayer St Sum ε) :=
  match env.per_block_processing r1.state block r1.block_sig_strategy
      (effective_verify_block_root r1 i) (replay_ctxt block) with
  | .error e =>
    (evs0 ++ [.applyBlock i (env.slotOf r1.state) r1.block_sig_strategy
        (effective_verify_block_root r1 i) (replay_ctxt block)],
      .fail (env.injErr (.BlockProcessing e)))
  | .ok st =>
    match r1.post_block_hook with
    | none =>
      (evs0 ++ [.applyBlock i (env.slotOf r1.state) r1.block_sig_strategy
          (effective_verify_block_root r1 i) (replay_ctxt block)],
        .ok { r1 with state := st })
    | some hook =>
      match hook st block with
      | .error e =>
        (evs0 ++ [.applyBlock i (env.slotOf r1.state) r1.block_sig_strategy
            (effective_verify_block_root r1 i) (replay_ctxt block),
          .postBlock i (env.slotOf st)], .fail e)
      | .ok st4 =>
        (evs0 ++ [.applyBlock i (env.slotOf r1.state) r1.block_sig_strategy
            (effective_verify_block_root r1 i) (replay_ctxt block),
          .postBlock i (env.slotOf st)], .ok { r1 with state := st4 })

/-- The per-block tail of the loop body: pre-block hook, then
`block_step_core`. -/
def block_step (env : Env St Sum σ β γ ε) (i : Nat) (block : SignedBeaconBlock)
    (r : BlockReplayer St Sum ε) :
    List Event × Outcome ε (BlockReplayer St Sum ε) :=
  match r.pre_block_hook with
  | none => block_step_core env i block [] r
  | some hook =>
    match hook r.state block with
    | .error e => ([.preBlock i (env.slotOf r.state)], .fail e)
    | .ok st =>
      block_step_core env i block [.preBlock i (env.slotOf r.state)]
        { r with state := st }

/-- The `for (i, block) in blocks.iter().enumerate()` loop of
`apply_blocks`: `remaining` is the suffix of `blocks` from index `i` on.
The index-0 block is skipped entirely when its slot does not exceed the
state's slot. -/
def apply_blocks_go (env : Env St Sum σ β γ ε) (fuel : Nat)
    (blocks : List SignedBeaconBlock) :
    BlockReplayer St Sum ε → Nat → List SignedBeaconBlock →
      List Event × Outcome ε (BlockReplayer St Sum ε)
  | r, _, [] => ([], .ok r)
  | r, i, block :: remaining =>
    if i = 0 ∧ block.slot ≤ env.slotOf r.state then
      apply_blocks_go env fuel blocks r (i + 1) remaining
    else
      match slot_loop env blocks i block.slot
          (fun st => decide (env.slotOf st < block.slot)) fuel r with
      | (evs, .ok r1) =>
        match block_step env i block r1 with
        | (evs2, .ok r2) =>
          (evs ++ evs2 ++
              (apply_blocks_go env fuel blocks r2 (i + 1) remaining).1,
            (apply_blocks_go env fuel blocks r2 (i + 1) remaining).2)
        | (evs2, out) => (evs ++ evs2, out)
      | (evs, out) => (evs, out)

/-- Embedding of `apply_blocks`: run the block loop, then, when a target
slot is supplied, advance to it with `get_state_root` called at index
`blocks.len()` and the skipped flag unconditionally `true`. -/
def apply_blocks (env : Env St Sum σ β γ ε) (fuel : Nat)
    (r : BlockReplayer St Sum ε) (blocks : List SignedBeaconBlock)
    (target_slot : Option Slot) :
    List Event × Outcome ε (BlockReplayer St Sum ε) :=
  match apply_blocks_go env fuel blocks r 0 blocks with
  | (evs, .ok r1) =>
    match target_slot with
    | none => (evs, .ok r1)
    | some target =>
      (evs ++
          (slot_loop env blocks blocks.length target (fun _ => true) fuel r1).1,
        (slot_loop env blocks blocks.length target (fun _ => true) fuel r1).2)
  | other => other

/-- `into_state`: hand the built state back to the caller. -/
def BlockReplayer.into_state (r : BlockReplayer St Sum ε) : St :=
  r.state

/-! ### Observables over traces and replayers -/

/-- The block index an event refers to, when it refers to one. -/
def eventBlockIndex : Event → Option Nat
  | .preBlock i _ => some i
  | .applyBlock i _ _ _ _ => some i
  | .postBlock i _ => some i
  | _ => none

/-- Is this the path-3 ("miss") resolution? -/
def isMissPath : RootPath → Bool
  | .computed => true
  | _ => false

/-- Does the event record a path-3 ("miss") root resolution? -/
def isMissResolve : Event → Bool
  | .resolveRoot .computed _ => true
  | _ => false

/-- The `(slot, skipped)` pairs handed to the post-slot hook. -/
def postSlotReports (evs : List Event) : List (Slot × Bool) :=
  evs.filterMap fun ev =>
    match ev with
    | .postSlot s b => some (s, b)
    | _ => none

/-- The state slot observed at an event, when the event observes one. -/
def eventSlot : Event → Option Slot
  | .resolveRoot _ _ => none
  | .preSlot s _ => some s
  | .postSlot s _ => some s
  | .preBlock _ s => some s
  | .applyBlock _ s _ _ _ => some s
  | .postBlock _ s => some s

/-- All state slots observed along a trace, in order. -/
def traceSlots (evs : List Event) : List Slot :=
  evs.filterMap eventSlot

/-- The final state's slot of a successful outcome, as a (sub-singleton)
list. -/
def outSlots (env : Env St Sum σ β γ ε) :
    Outcome ε (BlockReplayer St Sum ε) → List Slot
  | .ok r => [env.slotOf r.state]
  | _ => []

/-- Boolean monotone-chain check: `monoFrom a l` holds when
`a :: l` is non-decreasing. -/
def monoFrom : Nat → List Nat → Bool
  | _, [] => true
  | a, b :: l => decide (a ≤ b) && monoFrom b l

/-- The list `[a, a + 1, ..., a + n - 1]`. -/
def slotRange (a : Nat) : Nat → List Nat
  | 0 => []
  | n + 1 => a :: slotRange (a + 1) n

/-- Two replayers agreeing on every configuration field (everything except
the state, the remaining iterator and the miss flag). -/
def sameConfig (r r' : BlockReplayer St Sum ε) : Prop :=
  r'.block_sig_strategy = r.block_sig_strategy ∧
  r'.verify_block_root = r.verify_block_root ∧
  r'.pre_block_hook = r.pre_block_hook ∧
  r'.post_block_hook = r.post_block_hook ∧
  r'.pre_slot_hook = r.pre_slot_hook ∧
  r'.post_slot_hook = r.post_slot_hook

/-- The state-root-source strategy yields nothing for the current slot:
either no source is configured (and the replayer is untouched), or the
scan finds no exact-slot entry and merely advances past smaller slots. -/
def iterFallthrough (env : Env St Sum σ β γ ε)
    (r r' : BlockReplayer St Sum ε) : Prop :=
  (r.state_root_iter = none ∧ r' = r) ∨
  (∃ l rest, r.state_root_iter = some l ∧
    find_root_in_iter (env.slotOf r.state) l = .ok (none, rest) ∧
    r' = { r with state_root_iter := some rest })

/-- The previous block in the list targets the current slot (the path-2
condition of `get_state_root`). -/
def prevBlockHit (blocks : List SignedBeaconBlock) (i : Nat) (slot : Slot) :
    Prop :=
  1 ≤ i ∧ ∃ pb, blocks[i - 1]? = some pb ∧ pb.slot = slot

/-- Every not-yet-consumed entry of the state-root source is an `Ok`. -/
def iterAllOk (r : BlockReplayer St Sum ε) : Prop :=
  ∀ l, r.state_root_iter = some l → ∀ x ∈ l, ∃ rt s, x = Except.ok (rt, s)

/-- Slot discipline of the environment and a replayer's hooks: whenever an
external call succeeds, `per_slot_processing` advances the slot by exactly
one and everything else leaves it unchanged — the contracts of §6 of the
spec and the behaviours the invariant claim assumes of the hooks. -/
structure SlotDiscipline (env : Env St Sum σ β γ ε)
    (r : BlockReplayer St Sum ε) : Prop where
  per_slot : ∀ st root st' sum,
    env.per_slot_processing st root = Except.ok (st', sum) →
    env.slotOf st' = env.slotOf st + 1
  per_block : ∀ st block strat v c st',
    env.per_block_processing st block strat v c = Except.ok st' →
    env.slotOf st' = env.slotOf st
  uthc : ∀ st rt st', env.update_tree_hash_cache st = Except.ok (rt, st') →
    env.slotOf st' = env.slotOf st
  pre_slot : ∀ hk, r.pre_slot_hook = some hk → ∀ root st st',
    hk root st = Except.ok st' → env.slotOf st' = env.slotOf st
  post_slot : ∀ hk, r.post_slot_hook = some hk → ∀ st sum b st',
    hk st sum b = Except.ok st' → env.slotOf st' = env.slotOf st
  pre_block : ∀ hk, r.pre_block_hook = some hk → ∀ st block st',
    hk st block = Except.ok st' → env.slotOf st' = env.slotOf st
  post_block : ∀ hk, r.post_block_hook = some hk → ∀ st block st',
    hk st block = Except.ok st' → env.slotOf st' = env.slotOf st

/-- Totality discipline for the empty-list/target-slot theorem: every
external call the target phase can make succeeds, `per_slot_processing`
advances the slot by exactly one, hooks and the cache refresh keep it, and
the source never yields an `Err` entry. -/
structure TotalEnv (env : Env St Sum σ β γ ε)
    (r : BlockReplayer St Sum ε) : Prop where
  per_slot : ∀ st root, ∃ st' sum,
    env.per_slot_processing st root = Except.ok (st', sum) ∧
    env.slotOf st' = env.slotOf st + 1
  uthc : ∀ st, ∃ rt st', env.update_tree_hash_cache st = Except.ok (rt, st') ∧
    env.slotOf st' = env.slotOf st
  pre_slot : ∀ hk, r.pre_slot_hook = some hk → ∀ root st, ∃ st',
    hk root st = Except.ok st' ∧ env.slotOf st' = env.slotOf st
  post_slot : ∀ hk, r.post_slot_hook = some hk → ∀ st sum b, ∃ st',
    hk st sum b = Except.ok st' ∧ env.slotOf st' = env.slotOf st
  iter : iterAllOk r

end Engine

end Replay

/-! ## Concrete instances used by witnesses and counterexamples -/

namespace Conc

open Replay

/-- A concrete environment over `St = Nat` where the state is its own slot:
slot processing increments, block processing and cache refresh leave the
slot unchanged, the recomputed root of slot `s` is `1000 + s`. -/
def env0 : Env Nat Unit Unit Unit Unit Nat :=
  { slotOf := id
    per_slot_processing := fun st _ => .ok (st + 1, none)
    per_block_processing := fun st _ _ _ _ => .ok st
    update_tree_hash_cache := fun st => .ok (1000 + st, st)
    injErr := fun _ => 0 }

def r5 : BlockReplayer Nat Unit Nat := BlockReplayer.new 5

def blk (s : Slot) (root : Hash256) (p : Nat) : SignedBeaconBlock :=
  { slot := s, state_root := root, proposer_index := p }

def b5 : SignedBeaconBlock := blk 5 205 1

def b7 : SignedBeaconBlock := blk 7 207 2

/-- A replayer whose state-root source holds exact entries for slots 5, 7. -/
def rIter : BlockReplayer Nat Unit Nat :=
  (BlockReplayer.new 5).set_state_root_iter [.ok (105, 5), .ok (107, 7)]

/-- A replayer whose state-root source errors after one stale entry. -/
def rErr : BlockReplayer Nat Unit Nat :=
  (BlockReplayer.new 5).set_state_root_iter [.ok (104, 4), .error 99]

/-- A replayer carrying a benign post-slot hook. -/
def rHook : BlockReplayer Nat Unit Nat :=
  { (BlockReplayer.new 5 : BlockReplayer Nat Unit Nat) with
    post_slot_hook := some fun st _ _ => Except.ok st }

end Conc

/-! ## Theorems -/

open DepositVerify Replay

/-- Concrete crypto environment for the deposit witnesses: decoding succeeds
unless the pubkey field is `0`, and a signature verifies when it equals the
pubkey. -/
def cenv : CryptoEnv :=
  { deposit_pubkey_signature_message := fun dd _ =>
      if dd.pubkey = 0 then none else some (dd.pubkey, dd.signature, 7)
    bls_verify := fun sg pk _ => sg = pk
    tree_hash_root := fun dd => dd.amount
    verify_merkle_proof := fun leaf proof depth index root =>
      (leaf + index + depth == root) && !proof.isEmpty }

def dd_ok : DepositData :=
  { pubkey := 3, withdrawal_credentials := 0, amount := 2, signature := 3 }

def dd_badsig : DepositData :=
  { pubkey := 3, withdrawal_credentials := 0, amount := 2, signature := 4 }

def dd_badbytes : DepositData :=
  { pubkey := 0, withdrawal_credentials := 0, amount := 2, signature := 3 }

def spec32 : ChainSpec := { deposit_contract_tree_depth := 32 }

def st_root8 : DepositVerify.BeaconState :=
  { eth1_data := { deposit_root := 40 } }

def dep_ok : Deposit := { proof := [9], data := dd_ok }

def specMax : ChainSpec := { deposit_contract_tree_depth := 2 ^ 64 - 1 }

def stBig : DepositVerify.BeaconState :=
  { eth1_data := { deposit_root := 2 + 2 ^ 64 } }

/-! ## Supporting lemmas -/

namespace Replay

section Lemmas

variable {St Sum σ β γ ε : Type}

theorem isMissResolve_resolveRoot (p : RootPath) (rt : Hash256) :
    isMissResolve (.resolveRoot p rt) = isMissPath p := by
  cases p <;> rfl

theorem isMissResolve_preSlot (s : Slot) (rt : Hash256) :
    isMissResolve (.preSlot s rt) = false := rfl

theorem isMissResolve_postSlot (s : Slot) (b : Bool) :
    isMissResolve (.postSlot s b) = false := rfl

theorem isMissResolve_preBlock (i : Nat) (s : Slot) :
    isMissResolve (.preBlock i s) = false := rfl

theorem isMissResolve_postBlock (i : Nat) (s : Slot) :
    isMissResolve (.postBlock i s) = false := rfl

/-- A successful iterator scan only consumes from the front: the remaining
iterator is a suffix of the original. -/
theorem find_root_in_iter_suffix (slot : Slot) :
    ∀ (l : List (Except ε (Hash256 × Slot))) {o rest},
      find_root_in_iter slot l = .ok (o, rest) → rest <:+ l := by
  intro l
  induction l with
  | nil =>
    intro o rest h
    simp only [find_root_in_iter, Except.ok.injEq, Prod.mk.injEq] at h
    obtain ⟨rfl, rfl⟩ := h
    exact List.nil_suffix
  | cons x t ih =>
    intro o rest h
    match x with
    | .error e => simp [find_root_in_iter] at h
    | .ok (rt, s) =>
      by_cases h1 : s < slot
      · simp only [find_root_in_iter, if_pos h1] at h
        exact (ih h).trans (List.suffix_cons _ _)
      · by_cases h2 : s = slot
        · simp only [find_root_in_iter, if_neg h1, if_pos h2, Except.ok.injEq,
            Prod.mk.injEq] at h
          obtain ⟨rfl, rfl⟩ := h
          exact List.suffix_cons _ _
        · simp only [find_root_in_iter, if_neg h1, if_neg h2, Except.ok.injEq,
            Prod.mk.injEq] at h
          obtain ⟨rfl, rfl⟩ := h
          exact List.suffix_refl _

/-- An `Err` entry reached after `Ok` entries of smaller slots is consumed,
selected and propagated by the scan. -/
theorem find_root_in_iter_error (slot : Slot) (e : ε) :
    ∀ (pre tail : List (Except ε (Hash256 × Slot))),
      (∀ x ∈ pre, ∃ rt s, x = Except.ok (rt, s) ∧ s < slot) →
      find_root_in_iter slot (pre ++ .error e :: tail) = .error e := by
  intro pre
  induction pre with
  | nil => intro tail _; simp [find_root_in_iter]
  | cons x t ih =>
    intro tail hx
    obtain ⟨rt, s, rfl, hs⟩ := hx x (by simp)
    simpa [find_root_in_iter, hs] using ih tail fun y hy => hx y (by simp [hy])

/-- The scan never fails over a source whose entries are all `Ok`. -/
theorem find_root_in_iter_all_ok (slot : Slot) :
    ∀ (l : List (Except ε (Hash256 × Slot))),
      (∀ x ∈ l, ∃ rt s, x = Except.ok (rt, s)) →
      ∃ o rest, find_root_in_iter slot l = .ok (o, rest) := by
  intro l
  induction l with
  | nil => intro _; exact ⟨none, [], rfl⟩
  | cons x t ih =>
    intro hx
    obtain ⟨rt, s, rfl⟩ := hx x (by simp)
    by_cases h1 : s < slot
    · obtain ⟨o, rest, h⟩ := ih fun y hy => hx y (by simp [hy])
      exact ⟨o, rest, by simp [find_root_in_iter, h1, h]⟩
    · by_cases h2 : s = slot
      · exact ⟨some rt, t, by simp [find_root_in_iter, h1, h2]⟩
      · exact ⟨none, .ok (rt, s) :: t, by simp [find_root_in_iter, h1, h2]⟩

/-- Path 2 of the fallback: a previous block at the current slot supplies
its declared state root and the replayer is untouched. -/
theorem get_state_root_fallback_hit (env : Env St Sum σ β γ ε)
    (r : BlockReplayer St Sum ε) (blocks : List SignedBeaconBlock) (i : Nat)
    (slot : Slot) (pb : SignedBeaconBlock)
    (h1 : 1 ≤ i) (h2 : blocks[i - 1]? = some pb) (h3 : pb.slot = slot) :
    get_state_root_fallback env r blocks i slot =
      .ok (pb.state_root, .fromPrevBlock, r) := by
  obtain ⟨i', rfl⟩ : ∃ i', i = i' + 1 := ⟨i - 1, by omega⟩
  simp only [Nat.add_sub_cancel] at h2
  simp [get_state_root_fallback, h2, h3]

/-- Path 3 of the fallback: without a previous block at the current slot the
root is recomputed from the state and the miss flag is set. -/
theorem get_state_root_fallback_miss (env : Env St Sum σ β γ ε)
    (r : BlockReplayer St Sum ε) (blocks : List SignedBeaconBlock) (i : Nat)
    (slot : Slot) (h : ¬ prevBlockHit blocks i slot) :
    get_state_root_fallback env r blocks i slot =
      match env.update_tree_hash_cache r.state with
      | .error e => .error (env.injErr (.BeaconState e))
      | .ok (state_root, st) =>
        .ok (state_root, .computed,
          { r with state := st, state_root_miss := true }) := by
  rcases i with _ | i'
  · simp [get_state_root_fallback]
  · rcases hg : blocks[i']? with _ | pb
    · simp [get_state_root_fallback, hg]
    · have hne : ¬ pb.slot = slot := fun he =>
        h ⟨by omega, pb, by simpa using hg, he⟩
      simp [get_state_root_fallback, hg, hne]

/-- Invariants of a successful fallback resolution: configuration fields and
the iterator are untouched, the miss flag is set exactly on path 3, and the
state only changes on path 3 (through `update_tree_hash_cache`). -/
theorem get_state_root_fallback_ok_inv (env : Env St Sum σ β γ ε)
    (r : BlockReplayer St Sum ε) (blocks : List SignedBeaconBlock) (i : Nat)
    (slot : Slot) {rt : Hash256} {p : RootPath} {r' : BlockReplayer St Sum ε}
    (h : get_state_root_fallback env r blocks i slot = .ok (rt, p, r')) :
    sameConfig r r' ∧
    r'.state_root_miss = (r.state_root_miss || isMissPath p) ∧
    ((r'.state = r.state ∧ p ≠ .computed) ∨
      (p = .computed ∧
        env.update_tree_hash_cache r.state = .ok (rt, r'.state))) ∧
    r'.state_root_iter = r.state_root_iter := by
  unfold get_state_root_fallback at h
  split at h
  · split at h
    · simp only [Except.ok.injEq, Prod.mk.injEq] at h
      obtain ⟨rfl, rfl, rfl⟩ := h
      exact ⟨⟨rfl, rfl, rfl, rfl, rfl, rfl⟩, by simp [isMissPath],
        Or.inl ⟨rfl, by decide⟩, rfl⟩
    · split at h
      · cases h
      · rename_i root st heq
        simp only [Except.ok.injEq, Prod.mk.injEq] at h
        obtain ⟨rfl, rfl, rfl⟩ := h
        exact ⟨⟨rfl, rfl, rfl, rfl, rfl, rfl⟩, by simp [isMissPath],
          Or.inr ⟨rfl, heq⟩, rfl⟩
  · split at h
    · cases h
    · rename_i root st heq
      simp only [Except.ok.injEq, Prod.mk.injEq] at h
      obtain ⟨rfl, rfl, rfl⟩ := h
      exact ⟨⟨rfl, rfl, rfl, rfl, rfl, rfl⟩, by simp [isMissPath],
        Or.inr ⟨rfl, heq⟩, rfl⟩

/-- Invariants of any successful `get_state_root` resolution: configuration
fields untouched, miss flag set exactly on path 3, state changed only on
path 3, iterator only ever advanced (suffix), and never materialised out of
thin air. -/
theorem get_state_root_ok_inv (env : Env St Sum σ β γ ε)
    (r : BlockReplayer St Sum ε) (blocks : List SignedBeaconBlock) (i : Nat)
    {rt : Hash256} {p : RootPath} {r' : BlockReplayer St Sum ε}
    (h : get_state_root env r blocks i = .ok (rt, p, r')) :
    sameConfig r r' ∧
    r'.state_root_miss = (r.state_root_miss || isMissPath p) ∧
    ((r'.state = r.state ∧ p ≠ .computed) ∨
      (p = .computed ∧
        env.update_tree_hash_cache r.state = .ok (rt, r'.state))) ∧
    (∀ l, r.state_root_iter = some l →
      ∃ l', r'.state_root_iter = some l' ∧ l' <:+ l) ∧
    (r.state_root_iter = none → r'.state_root_iter = none) := by
  unfold get_state_root at h
  split at h
  · rename_i l hit
    split at h
    · cases h
    · rename_i root rest hf
      simp only [Except.ok.injEq, Prod.mk.injEq] at h
      obtain ⟨rfl, rfl, rfl⟩ := h
      refine ⟨⟨rfl, rfl, rfl, rfl, rfl, rfl⟩, by simp [isMissPath],
        Or.inl ⟨rfl, by decide⟩, ?_, ?_⟩
      · intro l0 hl0
        rw [hit] at hl0
        cases hl0
        exact ⟨rest, rfl, find_root_in_iter_suffix _ _ hf⟩
      · intro hn
        rw [hn] at hit
        cases hit
    · rename_i rest hf
      obtain ⟨hc, hm, hs, hiter⟩ := get_state_root_fallback_ok_inv env
        { r with state_root_iter := some rest } blocks i
        (env.slotOf r.state) h
      refine ⟨hc, hm, hs, ?_, ?_⟩
      · intro l0 hl0
        rw [hit] at hl0
        cases hl0
        exact ⟨rest, by rw [hiter], find_root_in_iter_suffix _ _ hf⟩
      · intro hn
        rw [hn] at hit
        cases hit
  · rename_i hit
    obtain ⟨hc, hm, hs, hiter⟩ := get_state_root_fallback_ok_inv env r blocks
      i (env.slotOf r.state) h
    refine ⟨hc, hm, hs, ?_, ?_⟩
    · intro l hl
      rw [hit] at hl
      cases hl
    · intro _
      rw [hiter, hit]

/-- With a total `update_tree_hash_cache` and an all-`Ok` source,
`get_state_root` always succeeds, and its post-state keeps the slot when
the cache refresh keeps the slot. -/
theorem get_state_root_total (env : Env St Sum σ β γ ε)
    (r : BlockReplayer St Sum ε) (blocks : List SignedBeaconBlock) (i : Nat)
    (huthc : ∀ st, ∃ rt st', env.update_tree_hash_cache st = .ok (rt, st'))
    (hok : iterAllOk r) :
    ∃ rt p r', get_state_root env r blocks i = .ok (rt, p, r') := by
  have hfb : ∀ (r0 : BlockReplayer St Sum ε) (slot : Slot), r0.state = r.state →
      ∃ rt p r', get_state_root_fallback env r0 blocks i slot = .ok (rt, p, r') := by
    intro r0 slot hst
    unfold get_state_root_fallback
    split
    · split
      · exact ⟨_, _, _, rfl⟩
      · obtain ⟨rt, st', heq⟩ := huthc r0.state
        rw [heq]
        exact ⟨_, _, _, rfl⟩
    · obtain ⟨rt, st', heq⟩ := huthc r0.state
      rw [heq]
      exact ⟨_, _, _, rfl⟩
  unfold get_state_root
  split
  · rename_i l hit
    obtain ⟨o, rest, hf⟩ :=
      find_root_in_iter_all_ok (env.slotOf r.state) l (hok l hit)
    rw [hf]
    rcases o with _ | root
    · exact hfb _ _ rfl
    · exact ⟨_, _, _, rfl⟩
  · exact hfb r _ rfl

/-- Advancing a suffix of an all-`Ok` source keeps it all-`Ok`. -/
theorem iterAllOk_of_suffix (r r' : BlockReplayer St Sum ε)
    (hok : iterAllOk r)
    (hsome : ∀ l, r.state_root_iter = some l →
      ∃ l', r'.state_root_iter = some l' ∧ l' <:+ l)
    (hnone : r.state_root_iter = none → r'.state_root_iter = none) :
    iterAllOk r' := by
  intro l' hl' x hx
  rcases hit : r.state_root_iter with _ | l
  · rw [hnone hit] at hl'; cases hl'
  · obtain ⟨l'', hl'', hsuf⟩ := hsome l hit
    rw [hl''] at hl'
    cases hl'
    exact hok l hit x (hsuf.subset hx)

theorem sameConfig_refl (r : BlockReplayer St Sum ε) : sameConfig r r :=
  ⟨rfl, rfl, rfl, rfl, rfl, rfl⟩

theorem sameConfig_trans {r1 r2 r3 : BlockReplayer St Sum ε}
    (h1 : sameConfig r1 r2) (h2 : sameConfig r2 r3) : sameConfig r1 r3 := by
  obtain ⟨a1, b1, c1, d1, e1, f1⟩ := h1
  obtain ⟨a2, b2, c2, d2, e2, f2⟩ := h2
  exact ⟨a2.trans a1, b2.trans b1, c2.trans c1, d2.trans d1, e2.trans e1,
    f2.trans f1⟩

/-- Trace shape of the per-slot tail: it only appends a possible post-slot
report to the accumulated trace. -/
theorem slot_step_core_events (env : Env St Sum σ β γ ε) (skippedOf : St → Bool)
    (state_root : Hash256) (evs0 : List Event) (r2 : BlockReplayer St Sum ε)
    {evs : List Event} {out : Outcome ε (BlockReplayer St Sum ε)}
    (h : slot_step_core env skippedOf state_root evs0 r2 = (evs, out)) :
    evs = evs0 ∨ ∃ s b, evs = evs0 ++ [Event.postSlot s b] := by
  unfold slot_step_core at h
  split at h
  · cases h
    exact Or.inl rfl
  · split at h
    · cases h
      exact Or.inl rfl
    · split at h
      · cases h
        exact Or.inr ⟨_, _, rfl⟩
      · cases h
        exact Or.inr ⟨_, _, rfl⟩

/-- Successful per-slot tail: configuration, miss flag and iterator are
untouched (only the state moves). -/
theorem slot_step_core_ok_inv (env : Env St Sum σ β γ ε)
    (skippedOf : St → Bool) (state_root : Hash256) (evs0 : List Event)
    (r2 : BlockReplayer St Sum ε) {evs : List Event}
    {r' : BlockReplayer St Sum ε}
    (h : slot_step_core env skippedOf state_root evs0 r2 = (evs, .ok r')) :
    sameConfig r2 r' ∧ r'.state_root_miss = r2.state_root_miss ∧
    r'.state_root_iter = r2.state_root_iter := by
  unfold slot_step_core at h
  split at h
  · cases h
  · split at h
    · cases h
      exact ⟨sameConfig_refl _, rfl, rfl⟩
    · split at h
      · cases h
      · cases h
        exact ⟨sameConfig_refl _, rfl, rfl⟩

/-- Slot steps never emit block-indexed events. -/
theorem slot_step_events (env : Env St Sum σ β γ ε)
    (blocks : List SignedBeaconBlock) (i : Nat) (skippedOf : St → Bool)
    (r : BlockReplayer St Sum ε) {evs : List Event}
    {out : Outcome ε (BlockReplayer St Sum ε)}
    (h : slot_step env blocks i skippedOf r = (evs, out)) :
    ∀ ev ∈ evs, eventBlockIndex ev = none := by
  unfold slot_step at h
  split at h
  · cases h
    intro ev hev
    cases hev
  · rename_i state_root path r1 hg
    split at h
    · rcases slot_step_core_events env skippedOf state_root _ r1 h with
        rfl | ⟨s, b, rfl⟩ <;> simp [eventBlockIndex]
    · split at h
      · cases h
        simp [eventBlockIndex]
      · rcases slot_step_core_events env skippedOf state_root _ _ h with
          rfl | ⟨s, b, rfl⟩ <;> simp [eventBlockIndex]

/-- Successful slot step: configuration preserved, the miss flag is set
exactly when the trace records a path-3 resolution, and the iterator is
only advanced. -/
theorem slot_step_ok_inv (env : Env St Sum σ β γ ε)
    (blocks : List SignedBeaconBlock) (i : Nat) (skippedOf : St → Bool)
    (r : BlockReplayer St Sum ε) {evs : List Event}
    {r' : BlockReplayer St Sum ε}
    (h : slot_step env blocks i skippedOf r = (evs, .ok r')) :
    sameConfig r r' ∧
    r'.state_root_miss = (r.state_root_miss || evs.any isMissResolve) ∧
    (∀ l, r.state_root_iter = some l →
      ∃ l', r'.state_root_iter = some l' ∧ l' <:+ l) ∧
    (r.state_root_iter = none → r'.state_root_iter = none) := by
  unfold slot_step at h
  split at h
  · cases h
  · rename_i state_root path r1 hg
    obtain ⟨hc1, hm1, -, hsome1, hnone1⟩ :=
      get_state_root_ok_inv env r blocks i hg
    split at h
    · obtain ⟨hc2, hm2, hi2⟩ :=
        slot_step_core_ok_inv env skippedOf state_root _ r1 h
      refine ⟨sameConfig_trans hc1 hc2, ?_,
        fun l hl => by
          obtain ⟨l', hl', hsuf⟩ := hsome1 l hl
          exact ⟨l', hi2.trans hl', hsuf⟩,
        fun hn => hi2.trans (hnone1 hn)⟩
      rcases slot_step_core_events env skippedOf state_root _ r1 h with
        rfl | ⟨s, b, rfl⟩ <;>
        simp [hm2, hm1, isMissResolve_resolveRoot, isMissResolve_postSlot]
    · split at h
      · cases h
      · rename_i hook hhook st hst
        obtain ⟨hc2, hm2, hi2⟩ :=
          slot_step_core_ok_inv env skippedOf state_root _ _ h
        have hc12 : sameConfig r1 r' :=
          sameConfig_trans ⟨rfl, rfl, rfl, rfl, rfl, rfl⟩ hc2
        refine ⟨sameConfig_trans hc1 hc12, ?_,
          fun l hl => by
            obtain ⟨l', hl', hsuf⟩ := hsome1 l hl
            exact ⟨l', hi2.trans hl', hsuf⟩,
          fun hn => hi2.trans (hnone1 hn)⟩
        rcases slot_step_core_events env skippedOf state_root _ _ h with
          rfl | ⟨s, b, rfl⟩ <;>
          simp [hm2, hm1, isMissResolve_resolveRoot, isMissResolve_preSlot,
            isMissResolve_postSlot]

/-- Trace shape of the per-block tail: it appends only block-indexed,
non-miss events, and any recorded `per_block_processing` call uses the
replayer's signature strategy and the effective block-root decision. -/
theorem block_step_core_events (env : Env St Sum σ β γ ε) (i : Nat)
    (block : SignedBeaconBlock) (evs0 : List Event)
    (r1 : BlockReplayer St Sum ε) {evs : List Event}
    {out : Outcome ε (BlockReplayer St Sum ε)}
    (h : block_step_core env i block evs0 r1 = (evs, out)) :
    ∃ tail, evs = evs0 ++ tail ∧
      (∀ ev ∈ tail, eventBlockIndex ev = some i ∧ isMissResolve ev = false) ∧
      (∀ j s strat dec c, Event.applyBlock j s strat dec c ∈ tail →
        strat = r1.block_sig_strategy ∧
        dec = effective_verify_block_root r1 i) := by
  unfold block_step_core at h
  split at h
  · cases h
    refine ⟨_, rfl, by simp [eventBlockIndex, isMissResolve], ?_⟩
    intro j s strat dec c hmem
    simp only [List.mem_singleton, Event.applyBlock.injEq] at hmem
    exact ⟨hmem.2.2.1, hmem.2.2.2.1⟩
  · split at h
    · cases h
      refine ⟨_, rfl, by simp [eventBlockIndex, isMissResolve], ?_⟩
      intro j s strat dec c hmem
      simp only [List.mem_singleton, Event.applyBlock.injEq] at hmem
      exact ⟨hmem.2.2.1, hmem.2.2.2.1⟩
    · split at h <;>
        · cases h
          refine ⟨_, rfl, by simp [eventBlockIndex, isMissResolve], ?_⟩
          intro j s strat dec c hmem
          simp only [List.mem_cons, List.not_mem_nil, or_false,
            Event.applyBlock.injEq] at hmem
          rcases hmem with hmem | hmem
          · exact ⟨hmem.2.2.1, hmem.2.2.2.1⟩
          · cases hmem

/-- Successful per-block tail: configuration, miss flag and iterator are
untouched. -/
theorem block_step_core_ok_inv (env : Env St Sum σ β γ ε) (i : Nat)
    (block : SignedBeaconBlock) (evs0 : List Event)
    (r1 : BlockReplayer St Sum ε) {evs : List Event}
    {r' : BlockReplayer St Sum ε}
    (h : block_step_core env i block evs0 r1 = (evs, .ok r')) :
    sameConfig r1 r' ∧ r'.state_root_miss = r1.state_root_miss ∧
    r'.state_root_iter = r1.state_root_iter := by
  unfold block_step_core at h
  split at h
  · cases h
  · split at h
    · cases h
      exact ⟨sameConfig_refl _, rfl, rfl⟩
    · split at h
      · cases h
      · cases h
        exact ⟨sameConfig_refl _, rfl, rfl⟩

/-- Block steps only emit block-indexed, non-miss events at their own
index, and their recorded `per_block_processing` call uses the replayer's
strategy and effective decision. -/
theorem block_step_events (env : Env St Sum σ β γ ε) (i : Nat)
    (block : SignedBeaconBlock) (r : BlockReplayer St Sum ε)
    {evs : List Event} {out : Outcome ε (BlockReplayer St Sum ε)}
    (h : block_step env i block r = (evs, out)) :
    (∀ ev ∈ evs, eventBlockIndex ev = some i ∧ isMissResolve ev = false) ∧
    (∀ j s strat dec c, Event.applyBlock j s strat dec c ∈ evs →
      strat = r.block_sig_strategy ∧
      dec = effective_verify_block_root r i) := by
  unfold block_step at h
  split at h
  · obtain ⟨tail, rfl, hall, happ⟩ := block_step_core_events env i block _ r h
    exact ⟨by simpa using hall, by simpa using happ⟩
  · split at h
    · cases h
      constructor
      · simp [eventBlockIndex, isMissResolve]
      · intro j s strat dec c hmem
        simp at hmem
    · obtain ⟨tail, rfl, hall, happ⟩ := block_step_core_events env i block _ _ h
      constructor
      · intro ev hev
        rcases List.mem_append.mp hev with hev | hev
        · simp only [List.mem_singleton] at hev
          subst hev
          exact ⟨rfl, rfl⟩
        · exact hall ev hev
      · intro j s strat dec c hmem
        rcases List.mem_append.mp hmem with hmem | hmem
        · simp at hmem
        · exact happ j s strat dec c hmem

/-- Successful block step: configuration, miss flag and iterator are
untouched. -/
theorem block_step_ok_inv (env : Env St Sum σ β γ ε) (i : Nat)
    (block : SignedBeaconBlock) (r : BlockReplayer St Sum ε)
    {evs : List Event} {r' : BlockReplayer St Sum ε}
    (h : block_step env i block r = (evs, .ok r')) :
    sameConfig r r' ∧ r'.state_root_miss = r.state_root_miss ∧
    r'.state_root_iter = r.state_root_iter := by
  unfold block_step at h
  split at h
  · exact block_step_core_ok_inv env i block _ r h
  · split at h
    · cases h
    · obtain ⟨hc, hm, hi⟩ := block_step_core_ok_inv env i block _ _ h
      exact ⟨sameConfig_trans ⟨rfl, rfl, rfl, rfl, rfl, rfl⟩ hc, hm, hi⟩

/-- Slot loops never emit block-indexed events. -/
theorem slot_loop_events (env : Env St Sum σ β γ ε)
    (blocks : List SignedBeaconBlock) (i : Nat) (bound : Slot)
    (skippedOf : St → Bool) :
    ∀ (fuel : Nat) (r : BlockReplayer St Sum ε) {evs : List Event}
      {out : Outcome ε (BlockReplayer St Sum ε)},
      slot_loop env blocks i bound skippedOf fuel r = (evs, out) →
      ∀ ev ∈ evs, eventBlockIndex ev = none := by
  intro fuel
  induction fuel with
  | zero =>
    intro r evs out h ev hev
    unfold slot_loop at h
    split at h <;> (cases h; cases hev)
  | succ f ih =>
    intro r evs out h ev hev
    unfold slot_loop at h
    split at h
    · split at h
      · rename_i evs1 r1 hstep
        rcases hrec : slot_loop env blocks i bound skippedOf f r1 with
          ⟨evs2, out2⟩
        rw [hrec] at h
        dsimp only at h
        rw [Prod.mk.injEq] at h
        obtain ⟨rfl, -⟩ := h
        rcases List.mem_append.mp hev with hev | hev
        · exact slot_step_events env blocks i skippedOf r hstep ev hev
        · exact ih r1 hrec ev hev
      · rename_i evs1 out1 hstep
        rw [Prod.mk.injEq] at h
        obtain ⟨rfl, -⟩ := h
        exact slot_step_events env blocks i skippedOf r hstep ev hev
    · cases h
      cases hev

/-- Successful slot loop: configuration preserved, the miss flag is set
exactly when the trace records a path-3 resolution, the iterator only
advances. -/
theorem slot_loop_ok_inv (env : Env St Sum σ β γ ε)
    (blocks : List SignedBeaconBlock) (i : Nat) (bound : Slot)
    (skippedOf : St → Bool) :
    ∀ (fuel : Nat) (r : BlockReplayer St Sum ε) {evs : List Event}
      {r' : BlockReplayer St Sum ε},
      slot_loop env blocks i bound skippedOf fuel r = (evs, .ok r') →
      sameConfig r r' ∧
      r'.state_root_miss = (r.state_root_miss || evs.any isMissResolve) ∧
      (∀ l, r.state_root_iter = some l →
        ∃ l', r'.state_root_iter = some l' ∧ l' <:+ l) ∧
      (r.state_root_iter = none → r'.state_root_iter = none) := by
  intro fuel
  induction fuel with
  | zero =>
    intro r evs r' h
    unfold slot_loop at h
    split at h <;> cases h
    exact ⟨sameConfig_refl _, by simp,
      fun l hl => ⟨l, hl, List.suffix_refl _⟩, fun hn => hn⟩
  | succ f ih =>
    intro r evs r' h
    unfold slot_loop at h
    split at h
    · split at h
      · rename_i evs1 r1 hstep
        rcases hrec : slot_loop env blocks i bound skippedOf f r1 with
          ⟨evs2, out2⟩
        rw [hrec] at h
        dsimp only at h
        rw [Prod.mk.injEq] at h
        obtain ⟨rfl, h2⟩ := h
        subst h2
        obtain ⟨hc1, hm1, hsome1, hnone1⟩ :=
          slot_step_ok_inv env blocks i skippedOf r hstep
        obtain ⟨hc2, hm2, hsome2, hnone2⟩ := ih r1 hrec
        refine ⟨sameConfig_trans hc1 hc2, ?_, ?_, ?_⟩
        · simp [hm2, hm1, List.any_append, Bool.or_assoc]
        · intro l hl
          obtain ⟨l1, hl1, hs1⟩ := hsome1 l hl
          obtain ⟨l2, hl2, hs2⟩ := hsome2 l1 hl1
          exact ⟨l2, hl2, hs2.trans hs1⟩
        · intro hn
          exact hnone2 (hnone1 hn)
      · rename_i evs1 out1 hstep
        rw [Prod.mk.injEq] at h
        obtain ⟨rfl, h2⟩ := h
        subst h2
        obtain ⟨hc1, hm1, hsome1, hnone1⟩ :=
          slot_step_ok_inv env blocks i skippedOf r hstep
        exact ⟨hc1, hm1, hsome1, hnone1⟩
    · cases h
      exact ⟨sameConfig_refl _, by simp,
        fun l hl => ⟨l, hl, List.suffix_refl _⟩, fun hn => hn⟩

/-- Events of the block loop started at index `i`: block-indexed events
refer to indices at least `i`, and every recorded `per_block_processing`
call at index `j` uses the replayer's signature strategy and the
`unwrap_or`-style decision for `j`. -/
theorem apply_blocks_go_events (env : Env St Sum σ β γ ε) (fuel : Nat)
    (blocks : List SignedBeaconBlock) :
    ∀ (bs : List SignedBeaconBlock) (r : BlockReplayer St Sum ε) (i : Nat)
      {evs : List Event} {out : Outcome ε (BlockReplayer St Sum ε)},
      apply_blocks_go env fuel blocks r i bs = (evs, out) →
      (∀ ev ∈ evs, ∀ j, eventBlockIndex ev = some j → i ≤ j) ∧
      (∀ j s strat dec c, Event.applyBlock j s strat dec c ∈ evs →
        strat = r.block_sig_strategy ∧
        dec = r.verify_block_root.getD
          (if j ≤ 1 then VerifyBlockRoot.True else VerifyBlockRoot.False)) := by
  intro bs
  induction bs with
  | nil =>
    intro r i evs out h
    unfold apply_blocks_go at h
    cases h
    constructor
    · intro ev hev
      cases hev
    · intro j s strat dec c hm
      cases hm
  | cons b rest ih =>
    intro r i evs out h
    unfold apply_blocks_go at h
    split at h
    · obtain ⟨h1, h2⟩ := ih r (i + 1) h
      exact ⟨fun ev hev j hj => Nat.le_of_succ_le (h1 ev hev j hj), h2⟩
    · split at h
      · rename_i evs1 r1 hloop
        obtain ⟨hc1, -, -, -⟩ :=
          slot_loop_ok_inv env blocks i b.slot _ fuel r hloop
        split at h
        · rename_i evs2 r2 hbstep
          rcases hrec : apply_blocks_go env fuel blocks r2 (i + 1) rest with
            ⟨evs3, out3⟩
          rw [hrec] at h
          dsimp only at h
          rw [Prod.mk.injEq] at h
          obtain ⟨rfl, -⟩ := h
          obtain ⟨hc2, -, -⟩ := block_step_ok_inv env i b r1 hbstep
          obtain ⟨hb1, hb2⟩ := block_step_events env i b r1 hbstep
          obtain ⟨hg1, hg2⟩ := ih r2 (i + 1) hrec
          constructor
          · intro ev hev j hj
            rcases List.mem_append.mp hev with hev | hev
            · rcases List.mem_append.mp hev with hev | hev
              · rw [slot_loop_events env blocks i b.slot _ fuel r hloop
                  ev hev] at hj
                cases hj
              · have := (hb1 ev hev).1
                rw [this] at hj
                cases hj
                exact Nat.le_refl _
            · exact Nat.le_of_succ_le (hg1 ev hev j hj)
          · intro j s strat dec c hm
            rcases List.mem_append.mp hm with hm | hm
            · rcases List.mem_append.mp hm with hm | hm
              · have hnone :=
                  slot_loop_events env blocks i b.slot _ fuel r hloop _ hm
                simp [eventBlockIndex] at hnone
              · have hj : j = i := by
                  have := (hb1 _ hm).1
                  simp only [eventBlockIndex, Option.some.injEq] at this
                  exact this
                subst hj
                obtain ⟨hstrat, hdec⟩ := hb2 j s strat dec c hm
                refine ⟨hstrat.trans hc1.1, hdec.trans ?_⟩
                unfold effective_verify_block_root
                rw [hc1.2.1]
            · obtain ⟨hstrat, hdec⟩ := hg2 j s strat dec c hm
              exact ⟨hstrat.trans (hc2.1.trans hc1.1),
                hdec.trans (by rw [hc2.2.1, hc1.2.1])⟩
        · rename_i evs2 out2 hbstep
          rw [Prod.mk.injEq] at h
          obtain ⟨rfl, -⟩ := h
          obtain ⟨hb1, hb2⟩ := block_step_events env i b r1 hbstep
          constructor
          · intro ev hev j hj
            rcases List.mem_append.mp hev with hev | hev
            · rw [slot_loop_events env blocks i b.slot _ fuel r hloop
                ev hev] at hj
              cases hj
            · have := (hb1 ev hev).1
              rw [this] at hj
              cases hj
              exact Nat.le_refl _
          · intro j s strat dec c hm
            rcases List.mem_append.mp hm with hm | hm
            · have hnone :=
                slot_loop_events env blocks i b.slot _ fuel r hloop _ hm
              simp [eventBlockIndex] at hnone
            · have hj : j = i := by
                have := (hb1 _ hm).1
                simp only [eventBlockIndex, Option.some.injEq] at this
                exact this
              subst hj
              obtain ⟨hstrat, hdec⟩ := hb2 j s strat dec c hm
              refine ⟨hstrat.trans hc1.1, hdec.trans ?_⟩
              unfold effective_verify_block_root
              rw [hc1.2.1]
      · rename_i evs1 out1 hloop
        rw [Prod.mk.injEq] at h
        obtain ⟨rfl, -⟩ := h
        constructor
        · intro ev hev j hj
          rw [slot_loop_events env blocks i b.slot _ fuel r hloop ev hev]
            at hj
          cases hj
        · intro j s strat dec c hm
          have := slot_loop_events env blocks i b.slot _ fuel r hloop _ hm
          cases this

/-- Block steps never record a path-3 resolution. -/
theorem block_step_no_miss_events (env : Env St Sum σ β γ ε) (i : Nat)
    (block : SignedBeaconBlock) (r : BlockReplayer St Sum ε)
    {evs : List Event} {out : Outcome ε (BlockReplayer St Sum ε)}
    (h : block_step env i block r = (evs, out)) :
    evs.any isMissResolve = false := by
  obtain ⟨hb1, -⟩ := block_step_events env i block r h
  rw [List.any_eq_false]
  intro x hx
  simp [(hb1 x hx).2]

/-- Successful block loop: configuration preserved, the miss flag is set
exactly when the trace records a path-3 resolution, the iterator only
advances. -/
theorem apply_blocks_go_ok_inv (env : Env St Sum σ β γ ε) (fuel : Nat)
    (blocks : List SignedBeaconBlock) :
    ∀ (bs : List SignedBeaconBlock) (r : BlockReplayer St Sum ε) (i : Nat)
      {evs : List Event} {r' : BlockReplayer St Sum ε},
      apply_blocks_go env fuel blocks r i bs = (evs, .ok r') →
      sameConfig r r' ∧
      r'.state_root_miss = (r.state_root_miss || evs.any isMissResolve) ∧
      (∀ l, r.state_root_iter = some l →
        ∃ l', r'.state_root_iter = some l' ∧ l' <:+ l) ∧
      (r.state_root_iter = none → r'.state_root_iter = none) := by
  intro bs
  induction bs with
  | nil =>
    intro r i evs r' h
    unfold apply_blocks_go at h
    cases h
    exact ⟨sameConfig_refl _, by simp,
      fun l hl => ⟨l, hl, List.suffix_refl _⟩, fun hn => hn⟩
  | cons b rest ih =>
    intro r i evs r' h
    unfold apply_blocks_go at h
    split at h
    · exact ih r (i + 1) h
    · split at h
      · rename_i evs1 r1 hloop
        split at h
        · rename_i evs2 r2 hbstep
          rcases hrec : apply_blocks_go env fuel blocks r2 (i + 1) rest with
            ⟨evs3, out3⟩
          rw [hrec] at h
          dsimp only at h
          rw [Prod.mk.injEq] at h
          obtain ⟨rfl, h2⟩ := h
          subst h2
          obtain ⟨hcL, hmL, hsL, hnL⟩ :=
            slot_loop_ok_inv env blocks i b.slot _ fuel r hloop
          obtain ⟨hcB, hmB, hiB⟩ := block_step_ok_inv env i b r1 hbstep
          obtain ⟨hcG, hmG, hsG, hnG⟩ := ih r2 (i + 1) hrec
          have hnomiss := block_step_no_miss_events env i b r1 hbstep
          refine ⟨sameConfig_trans hcL (sameConfig_trans hcB hcG),
            ?_, ?_, ?_⟩
          · simp [hmG, hmB, hmL, hnomiss, List.any_append, Bool.or_assoc]
          · intro l hl
            obtain ⟨l1, hl1, s1⟩ := hsL l hl
            obtain ⟨l2, hl2, s2⟩ := hsG l1 (hiB.trans hl1)
            exact ⟨l2, hl2, s2.trans s1⟩
          · intro hn
            exact hnG (hiB.trans (hnL hn))
        · rename_i evs2 out2 hbstep
          rw [Prod.mk.injEq] at h
          obtain ⟨rfl, h2⟩ := h
          subst h2
          obtain ⟨hcL, hmL, hsL, hnL⟩ :=
            slot_loop_ok_inv env blocks i b.slot _ fuel r hloop
          obtain ⟨hcB, hmB, hiB⟩ := block_step_ok_inv env i b r1 hbstep
          have hnomiss := block_step_no_miss_events env i b r1 hbstep
          refine ⟨sameConfig_trans hcL hcB, ?_, ?_, ?_⟩
          · simp [hmB, hmL, hnomiss, List.any_append, Bool.or_assoc]
          · intro l hl
            obtain ⟨l1, hl1, s1⟩ := hsL l hl
            exact ⟨l1, hiB.trans hl1, s1⟩
          · intro hn
            exact hiB.trans (hnL hn)
      · rename_i evs1 out1 hloop
        rw [Prod.mk.injEq] at h
        obtain ⟨rfl, h2⟩ := h
        subst h2
        exact slot_loop_ok_inv env blocks i b.slot _ fuel r hloop

/-- Successful apply: configuration preserved and the miss flag is set
exactly when the trace records a path-3 resolution. -/
theorem apply_blocks_ok_inv (env : Env St Sum σ β γ ε) (fuel : Nat)
    (r : BlockReplayer St Sum ε) (blocks : List SignedBeaconBlock)
    (target : Option Slot) {evs : List Event} {r' : BlockReplayer St Sum ε}
    (h : apply_blocks env fuel r blocks target = (evs, .ok r')) :
    sameConfig r r' ∧
    r'.state_root_miss = (r.state_root_miss || evs.any isMissResolve) := by
  unfold apply_blocks at h
  split at h
  · rename_i evs1 r1 hgo
    obtain ⟨hcG, hmG, hsG, hnG⟩ :=
      apply_blocks_go_ok_inv env fuel blocks blocks r 0 hgo
    split at h
    · cases h
      exact ⟨hcG, hmG⟩
    · rename_i target1
      rcases hrec : slot_loop env blocks blocks.length target1
          (fun _ => true) fuel r1 with ⟨evs2, out2⟩
      rw [hrec] at h
      dsimp only at h
      rw [Prod.mk.injEq] at h
      obtain ⟨rfl, h2⟩ := h
      subst h2
      obtain ⟨hcL, hmL, -, -⟩ := slot_loop_ok_inv env blocks blocks.length
        target1 _ fuel r1 hrec
      exact ⟨sameConfig_trans hcG hcL,
        by simp [hmL, hmG, List.any_append, Bool.or_assoc]⟩
  · obtain ⟨hc, hm, -, -⟩ :=
      apply_blocks_go_ok_inv env fuel blocks blocks r 0 h
    exact ⟨hc, hm⟩

/-- Every block-indexed event of an apply trace was emitted by the block
loop (the target phase only advances slots). -/
theorem apply_blocks_block_events (env : Env St Sum σ β γ ε) (fuel : Nat)
    (r : BlockReplayer St Sum ε) (blocks : List SignedBeaconBlock)
    (target : Option Slot) {evs : List Event}
    {out : Outcome ε (BlockReplayer St Sum ε)}
    (h : apply_blocks env fuel r blocks target = (evs, out)) :
    ∀ ev ∈ evs, ∀ j, eventBlockIndex ev = some j →
      ∃ evs1 out1, apply_blocks_go env fuel blocks r 0 blocks = (evs1, out1)
        ∧ ev ∈ evs1 := by
  unfold apply_blocks at h
  split at h
  · rename_i evs1 r1 hgo
    split at h
    · cases h
      exact fun ev hev j hj => ⟨evs, .ok r1, hgo, hev⟩
    · rename_i target1
      rcases hrec : slot_loop env blocks blocks.length target1
          (fun _ => true) fuel r1 with ⟨evs2, out2⟩
      rw [hrec] at h
      dsimp only at h
      rw [Prod.mk.injEq] at h
      obtain ⟨rfl, -⟩ := h
      intro ev hev j hj
      rcases List.mem_append.mp hev with hev | hev
      · exact ⟨evs1, .ok r1, hgo, hev⟩
      · rw [slot_loop_events env blocks blocks.length target1 _ fuel r1
          hrec ev hev] at hj
        cases hj
  · exact fun ev hev j hj => ⟨evs, out, h, hev⟩

theorem SlotDiscipline.transfer {env : Env St Sum σ β γ ε}
    {r r' : BlockReplayer St Sum ε} (D : SlotDiscipline env r)
    (hc : sameConfig r r') : SlotDiscipline env r' :=
  ⟨D.per_slot, D.per_block, D.uthc,
    fun hk hh => D.pre_slot hk (hc.2.2.2.2.1.symm.trans hh),
    fun hk hh => D.post_slot hk (hc.2.2.2.2.2.symm.trans hh),
    fun hk hh => D.pre_block hk (hc.2.2.1.symm.trans hh),
    fun hk hh => D.post_block hk (hc.2.2.2.1.symm.trans hh)⟩

theorem traceSlots_append (xs ys : List Event) :
    traceSlots (xs ++ ys) = traceSlots xs ++ traceSlots ys :=
  List.filterMap_append xs ys eventSlot

theorem monoFrom_weaken {a b : Nat} (hab : a ≤ b) :
    ∀ {l : List Nat}, monoFrom b l = true → monoFrom a l = true := by
  intro l
  cases l with
  | nil => intro _; rfl
  | cons c t =>
    intro h
    simp only [monoFrom, Bool.and_eq_true, decide_eq_true_eq] at h ⊢
    exact ⟨Nat.le_trans hab h.1, h.2⟩

theorem monoFrom_glue {m : Nat} :
    ∀ {xs : List Nat} {a : Nat} {ys : List Nat},
      monoFrom a (xs ++ [m]) = true → monoFrom m ys = true →
      monoFrom a (xs ++ ys) = true := by
  intro xs
  induction xs with
  | nil =>
    intro a ys h1 h2
    simp only [List.nil_append, monoFrom, Bool.and_eq_true,
      decide_eq_true_eq, and_true] at h1
    exact monoFrom_weaken h1 h2
  | cons x t ih =>
    intro a ys h1 h2
    simp only [List.cons_append, monoFrom, Bool.and_eq_true,
      decide_eq_true_eq] at h1 ⊢
    exact ⟨h1.1, ih h1.2 h2⟩

theorem monoFrom_all {a : Nat} :
    ∀ {l : List Nat}, monoFrom a l = true → ∀ b ∈ l, a ≤ b := by
  intro l
  induction l generalizing a with
  | nil => intro _ b hb; cases hb
  | cons c t ih =>
    intro h b hb
    simp only [monoFrom, Bool.and_eq_true, decide_eq_true_eq] at h
    rcases List.mem_cons.mp hb with rfl | hb
    · exact h.1
    · exact Nat.le_trans h.1 (ih h.2 b hb)

/-- The slots observed by the per-slot tail never decrease, starting from
the pre-state's slot. -/
theorem slot_step_core_mono (env : Env St Sum σ β γ ε) (skippedOf : St → Bool)
    (state_root : Hash256) (evs0 : List Event) (r2 : BlockReplayer St Sum ε)
    (Dps : ∀ st root st' sum,
      env.per_slot_processing st root = Except.ok (st', sum) →
      env.slotOf st' = env.slotOf st + 1)
    (Dpost : ∀ hk, r2.post_slot_hook = some hk → ∀ st sum b st',
      hk st sum b = Except.ok st' → env.slotOf st' = env.slotOf st)
    {evs : List Event} {out : Outcome ε (BlockReplayer St Sum ε)}
    (h : slot_step_core env skippedOf state_root evs0 r2 = (evs, out)) :
    ∃ ts : List Nat, traceSlots evs = traceSlots evs0 ++ ts ∧
      monoFrom (env.slotOf r2.state) (ts ++ outSlots env out) = true := by
  unfold slot_step_core at h
  split at h
  · cases h
    exact ⟨[], by simp, rfl⟩
  · rename_i st summary hps
    have hst := Dps _ _ _ _ hps
    split at h
    · cases h
      refine ⟨[], by simp, ?_⟩
      simp [outSlots, monoFrom, hst]
    · rename_i hk hhk
      split at h
      · cases h
        refine ⟨[env.slotOf st], by simp [traceSlots, eventSlot], ?_⟩
        simp [outSlots, monoFrom, hst]
      · rename_i st4 hk4
        cases h
        have hst4 := Dpost hk hhk _ _ _ _ hk4
        refine ⟨[env.slotOf st], by simp [traceSlots, eventSlot], ?_⟩
        simp [outSlots, monoFrom, hst, hst4]

/-- The slots observed by one slot step never decrease, starting from the
pre-state's slot. -/
theorem slot_step_mono (env : Env St Sum σ β γ ε)
    (blocks : List SignedBeaconBlock) (i : Nat) (skippedOf : St → Bool)
    (r : BlockReplayer St Sum ε) (D : SlotDiscipline env r)
    {evs : List Event} {out : Outcome ε (BlockReplayer St Sum ε)}
    (h : slot_step env blocks i skippedOf r = (evs, out)) :
    monoFrom (env.slotOf r.state) (traceSlots evs ++ outSlots env out) =
      true := by
  unfold slot_step at h
  split at h
  · cases h
    rfl
  · rename_i state_root path r1 hg
    obtain ⟨hc1, -, hstate, -, -⟩ := get_state_root_ok_inv env r blocks i hg
    have hs1 : env.slotOf r1.state = env.slotOf r.state := by
      rcases hstate with ⟨heq, -⟩ | ⟨-, huthc⟩
      · rw [heq]
      · exact D.uthc _ _ _ huthc
    split at h
    · obtain ⟨ts, hts, hmono⟩ := slot_step_core_mono env skippedOf state_root
        _ r1 D.per_slot ((D.transfer hc1).post_slot) h
      rw [hts]
      rw [hs1] at hmono
      simpa [traceSlots, eventSlot] using hmono
    · rename_i hk hhk
      split at h
      · cases h
        simp [traceSlots, eventSlot, outSlots, monoFrom, hs1]
      · rename_i st hkOk
        have hsst : env.slotOf st = env.slotOf r.state := by
          rw [(D.transfer hc1).pre_slot hk hhk _ _ _ hkOk, hs1]
        obtain ⟨ts, hts, hmono⟩ := slot_step_core_mono env skippedOf
          state_root _ { r1 with state := st } D.per_slot
          ((D.transfer hc1).post_slot) h
        rw [hts]
        rw [show env.slotOf ({ r1 with state := st } :
            BlockReplayer St Sum ε).state = env.slotOf r.state from hsst]
          at hmono
        simpa [traceSlots, eventSlot, hs1, monoFrom] using hmono

/-- The slots observed by the per-block tail never decrease. -/
theorem block_step_core_mono (env : Env St Sum σ β γ ε) (i : Nat)
    (block : SignedBeaconBlock) (evs0 : List Event)
    (r1 : BlockReplayer St Sum ε)
    (Dpb : ∀ st block strat v c st',
      env.per_block_processing st block strat v c = Except.ok st' →
      env.slotOf st' = env.slotOf st)
    (Dpost : ∀ hk, r1.post_block_hook = some hk → ∀ st block st',
      hk st block = Except.ok st' → env.slotOf st' = env.slotOf st)
    {evs : List Event} {out : Outcome ε (BlockReplayer St Sum ε)}
    (h : block_step_core env i block evs0 r1 = (evs, out)) :
    ∃ ts : List Nat, traceSlots evs = traceSlots evs0 ++ ts ∧
      monoFrom (env.slotOf r1.state) (ts ++ outSlots env out) = true := by
  unfold block_step_core at h
  split at h
  · cases h
    exact ⟨[env.slotOf r1.state],
      by simp [traceSlots_append, traceSlots, eventSlot],
      by simp [outSlots, monoFrom]⟩
  · rename_i st hpb
    have hst := Dpb _ _ _ _ _ _ hpb
    split at h
    · cases h
      refine ⟨[env.slotOf r1.state],
        by simp [traceSlots_append, traceSlots, eventSlot], ?_⟩
      simp [outSlots, monoFrom, hst]
    · rename_i hk hhk
      split at h
      · cases h
        refine ⟨[env.slotOf r1.state, env.slotOf st],
          by simp [traceSlots_append, traceSlots, eventSlot], ?_⟩
        simp [outSlots, monoFrom, hst]
      · rename_i st4 hk4
        cases h
        have hst4 := Dpost hk hhk _ _ _ hk4
        refine ⟨[env.slotOf r1.state, env.slotOf st],
          by simp [traceSlots_append, traceSlots, eventSlot], ?_⟩
        simp [outSlots, monoFrom, hst, hst4]

/-- The slots observed by one block step never decrease. -/
theorem block_step_mono (env : Env St Sum σ β γ ε) (i : Nat)
    (block : SignedBeaconBlock) (r : BlockReplayer St Sum ε)
    (D : SlotDiscipline env r)
    {evs : List Event} {out : Outcome ε (BlockReplayer St Sum ε)}
    (h : block_step env i block r = (evs, out)) :
    monoFrom (env.slotOf r.state) (traceSlots evs ++ outSlots env out) =
      true := by
  unfold block_step at h
  split at h
  · obtain ⟨ts, hts, hmono⟩ :=
      block_step_core_mono env i block _ r D.per_block D.post_block h
    rw [hts]
    simpa [traceSlots] using hmono
  · rename_i hk hhk
    split at h
    · cases h
      simp [traceSlots, eventSlot, outSlots, monoFrom]
    · rename_i st hkOk
      have hsst : env.slotOf st = env.slotOf r.state :=
        D.pre_block hk hhk _ _ _ hkOk
      obtain ⟨ts, hts, hmono⟩ := block_step_core_mono env i block _
        { r with state := st } D.per_block D.post_block h
      rw [hts]
      rw [show env.slotOf ({ r with state := st } :
          BlockReplayer St Sum ε).state = env.slotOf r.state from hsst]
        at hmono
      simpa [traceSlots, eventSlot, monoFrom] using hmono

/-- The slots observed by a slot loop never decrease. -/
theorem slot_loop_mono (env : Env St Sum σ β γ ε)
    (blocks : List SignedBeaconBlock) (i : Nat) (bound : Slot)
    (skippedOf : St → Bool) :
    ∀ (fuel : Nat) (r : BlockReplayer St Sum ε), SlotDiscipline env r →
      ∀ {evs : List Event} {out : Outcome ε (BlockReplayer St Sum ε)},
      slot_loop env blocks i bound skippedOf fuel r = (evs, out) →
      monoFrom (env.slotOf r.state) (traceSlots evs ++ outSlots env out) =
        true := by
  intro fuel
  induction fuel with
  | zero =>
    intro r D evs out h
    unfold slot_loop at h
    split at h <;> cases h <;> simp [traceSlots, outSlots, monoFrom]
  | succ f ih =>
    intro r D evs out h
    unfold slot_loop at h
    split at h
    · split at h
      · rename_i evs1 r1 hstep
        rcases hrec : slot_loop env blocks i bound skippedOf f r1 with
          ⟨evs2, out2⟩
        rw [hrec] at h
        dsimp only at h
        rw [Prod.mk.injEq] at h
        obtain ⟨rfl, h2⟩ := h
        subst h2
        have hm1 := slot_step_mono env blocks i skippedOf r D hstep
        have hm2 := ih r1
          (D.transfer (slot_step_ok_inv env blocks i skippedOf r hstep).1) hrec
        rw [traceSlots_append, List.append_assoc]
        exact monoFrom_glue (by simpa [outSlots] using hm1) hm2
      · rename_i evs1 out1 hstep
        rw [Prod.mk.injEq] at h
        obtain ⟨rfl, h2⟩ := h
        subst h2
        exact slot_step_mono env blocks i skippedOf r D hstep
    · cases h
      simp [traceSlots, outSlots, monoFrom]

/-- The slots observed by the block loop never decrease. -/
theorem apply_blocks_go_mono (env : Env St Sum σ β γ ε) (fuel : Nat)
    (blocks : List SignedBeaconBlock) :
    ∀ (bs : List SignedBeaconBlock) (r : BlockReplayer St Sum ε) (i : Nat),
      SlotDiscipline env r →
      ∀ {evs : List Event} {out : Outcome ε (BlockReplayer St Sum ε)},
      apply_blocks_go env fuel blocks r i bs = (evs, out) →
      monoFrom (env.slotOf r.state) (traceSlots evs ++ outSlots env out) =
        true := by
  intro bs
  induction bs with
  | nil =>
    intro r i D evs out h
    unfold apply_blocks_go at h
    cases h
    simp [traceSlots, outSlots, monoFrom]
  | cons b rest ih =>
    intro r i D evs out h
    unfold apply_blocks_go at h
    split at h
    · exact ih r (i + 1) D h
    · split at h
      · rename_i evs1 r1 hloop
        obtain ⟨hcL, -, -, -⟩ :=
          slot_loop_ok_inv env blocks i b.slot _ fuel r hloop
        split at h
        · rename_i evs2 r2 hbstep
          obtain ⟨hcB, -, -⟩ := block_step_ok_inv env i b r1 hbstep
          rcases hrec : apply_blocks_go env fuel blocks r2 (i + 1) rest with
            ⟨evs3, out3⟩
          rw [hrec] at h
          dsimp only at h
          rw [Prod.mk.injEq] at h
          obtain ⟨rfl, h2⟩ := h
          subst h2
          have hm1 := slot_loop_mono env blocks i b.slot _ fuel r D hloop
          have hm2 := block_step_mono env i b r1 (D.transfer hcL) hbstep
          have hm3 := ih r2 (i + 1)
            (D.transfer (sameConfig_trans hcL hcB)) hrec
          rw [traceSlots_append, traceSlots_append, List.append_assoc,
            List.append_assoc]
          refine monoFrom_glue (by simpa [outSlots] using hm1) ?_
          exact monoFrom_glue (by simpa [outSlots] using hm2) hm3
        · rename_i evs2 out2 hbstep
          rw [Prod.mk.injEq] at h
          obtain ⟨rfl, h2⟩ := h
          subst h2
          have hm1 := slot_loop_mono env blocks i b.slot _ fuel r D hloop
          have hm2 := block_step_mono env i b r1 (D.transfer hcL) hbstep
          rw [traceSlots_append, List.append_assoc]
          exact monoFrom_glue (by simpa [outSlots] using hm1) hm2
      · rename_i evs1 out1 hloop
        rw [Prod.mk.injEq] at h
        obtain ⟨rfl, h2⟩ := h
        subst h2
        exact slot_loop_mono env blocks i b.slot _ fuel r D hloop

theorem TotalEnv.carry {env : Env St Sum σ β γ ε}
    {r r' : BlockReplayer St Sum ε} (T : TotalEnv env r)
    (hc : sameConfig r r')
    (hsome : ∀ l, r.state_root_iter = some l →
      ∃ l', r'.state_root_iter = some l' ∧ l' <:+ l)
    (hnone : r.state_root_iter = none → r'.state_root_iter = none) :
    TotalEnv env r' :=
  ⟨T.per_slot, T.uthc,
    fun hk hh => T.pre_slot hk (hc.2.2.2.2.1.symm.trans hh),
    fun hk hh => T.post_slot hk (hc.2.2.2.2.2.symm.trans hh),
    iterAllOk_of_suffix r r' T.iter hsome hnone⟩

/-- Under totality, `get_state_root` always succeeds and never changes the
slot of the state. -/
theorem get_state_root_total_slot (env : Env St Sum σ β γ ε)
    (r : BlockReplayer St Sum ε) (blocks : List SignedBeaconBlock)
    (i : Nat) (T : TotalEnv env r) :
    ∃ rt p r', get_state_root env r blocks i = .ok (rt, p, r') ∧
      env.slotOf r'.state = env.slotOf r.state := by
  obtain ⟨rt, p, r', hg⟩ := get_state_root_total env r blocks i
    (fun st => by obtain ⟨rt0, st0, h0, -⟩ := T.uthc st; exact ⟨rt0, st0, h0⟩)
    T.iter
  refine ⟨rt, p, r', hg, ?_⟩
  obtain ⟨-, -, hstate, -, -⟩ := get_state_root_ok_inv env r blocks i hg
  rcases hstate with ⟨heq, -⟩ | ⟨-, huthc⟩
  · rw [heq]
  · obtain ⟨rt0, st0, h0, hslot⟩ := T.uthc r.state
    rw [h0] at huthc
    cases huthc
    exact hslot

/-- Under totality, the per-slot tail always succeeds, advances the slot by
one, and reports exactly one `(slot + 1, true)` pair to a present post-slot
hook when the skipped flag is the constant `true`. -/
theorem slot_step_core_total_true (env : Env St Sum σ β γ ε)
    (state_root : Hash256) (evs0 : List Event)
    (r2 : BlockReplayer St Sum ε)
    (Tps : ∀ st root, ∃ st' sum,
      env.per_slot_processing st root = Except.ok (st', sum) ∧
      env.slotOf st' = env.slotOf st + 1)
    (Tpost : ∀ hk, r2.post_slot_hook = some hk → ∀ st sum b, ∃ st',
      hk st sum b = Except.ok st' ∧ env.slotOf st' = env.slotOf st) :
    ∃ evs r', slot_step_core env (fun _ => true) state_root evs0 r2 =
        (evs, .ok r') ∧
      env.slotOf r'.state = env.slotOf r2.state + 1 ∧
      postSlotReports evs = postSlotReports evs0 ++
        (match r2.post_slot_hook with
         | none => []
         | some _ => [(env.slotOf r2.state + 1, true)]) := by
  obtain ⟨st, summary, hps, hsps⟩ := Tps r2.state (some state_root)
  rcases hpost : r2.post_slot_hook with _ | hk
  · refine ⟨evs0, { r2 with state := st }, ?_, hsps, by simp⟩
    simp only [slot_step_core, hps, hpost]
  · obtain ⟨st4, hk4, hs4⟩ := Tpost hk hpost st summary true
    refine ⟨evs0 ++ [.postSlot (env.slotOf st) true],
      { r2 with state := st4 }, ?_, ?_, ?_⟩
    · simp only [slot_step_core, hps, hpost, hk4]
    · rw [show env.slotOf ({ r2 with state := st4 } :
        BlockReplayer St Sum ε).state = env.slotOf st4 from rfl, hs4, hsps]
    · simp [postSlotReports, List.filterMap_append, hsps]

/-- Under totality, a slot step with the constant-`true` skipped flag
always succeeds, advances the slot by one and reports exactly one
`(slot + 1, true)` pair to a present post-slot hook. -/
theorem slot_step_total_true (env : Env St Sum σ β γ ε)
    (blocks : List SignedBeaconBlock) (i : Nat)
    (r : BlockReplayer St Sum ε) (T : TotalEnv env r) :
    ∃ evs r', slot_step env blocks i (fun _ => true) r = (evs, .ok r') ∧
      env.slotOf r'.state = env.slotOf r.state + 1 ∧
      postSlotReports evs =
        (match r.post_slot_hook with
         | none => []
         | some _ => [(env.slotOf r.state + 1, true)]) := by
  obtain ⟨rt, p, r1, hg, hs1⟩ := get_state_root_total_slot env r blocks i T
  obtain ⟨hc1, -, -, -, -⟩ := get_state_root_ok_inv env r blocks i hg
  rcases hpre : r1.pre_slot_hook with _ | hk
  · obtain ⟨evs, r', hcore, hslot, hrep⟩ := slot_step_core_total_true env rt
      [.resolveRoot p rt] r1 T.per_slot
      (fun hk0 hh0 => T.post_slot hk0 (hc1.2.2.2.2.2.symm.trans hh0))
    refine ⟨evs, r', ?_, by rw [hslot, hs1], ?_⟩
    · simp only [slot_step, hg, hpre]
      exact hcore
    · rw [hrep, hs1, hc1.2.2.2.2.2]
      simp [postSlotReports]
  · have hhk : r.pre_slot_hook = some hk := hc1.2.2.2.2.1.symm.trans hpre
    obtain ⟨st, hkOk, hsst⟩ := T.pre_slot hk hhk rt r1.state
    obtain ⟨evs, r', hcore, hslot, hrep⟩ := slot_step_core_total_true env rt
      [.resolveRoot p rt, .preSlot (env.slotOf r1.state) rt]
      { r1 with state := st } T.per_slot
      (fun hk0 hh0 => T.post_slot hk0 (hc1.2.2.2.2.2.symm.trans hh0))
    refine ⟨evs, r', ?_, ?_, ?_⟩
    · simp only [slot_step, hg, hpre, hkOk]
      rw [hpre] at hcore
      exact hcore
    · rw [hslot]
      rw [show env.slotOf ({ r1 with state := st } :
        BlockReplayer St Sum ε).state = env.slotOf st from rfl, hsst, hs1]
    · rw [hrep]
      rw [show env.slotOf ({ r1 with state := st } :
        BlockReplayer St Sum ε).state = env.slotOf st from rfl, hsst, hs1]
      rw [show ({ r1 with state := st } :
        BlockReplayer St Sum ε).post_slot_hook = r.post_slot_hook from
        hc1.2.2.2.2.2]
      simp [postSlotReports]

/-- Under totality, the target-phase slot loop runs the state up to `bound`
exactly, reporting every advanced slot to a present post-slot hook with the
skipped flag `true`. -/
theorem slot_loop_total_true (env : Env St Sum σ β γ ε)
    (blocks : List SignedBeaconBlock) (i : Nat) (bound : Slot) :
    ∀ (fuel : Nat) (r : BlockReplayer St Sum ε), TotalEnv env r →
      env.slotOf r.state ≤ bound → bound - env.slotOf r.state ≤ fuel →
      ∃ evs r', slot_loop env blocks i bound (fun _ => true) fuel r =
          (evs, .ok r') ∧
        env.slotOf r'.state = bound ∧
        sameConfig r r' ∧
        postSlotReports evs =
          (match r.post_slot_hook with
           | none => []
           | some _ => (slotRange (env.slotOf r.state + 1)
               (bound - env.slotOf r.state)).map (fun s => (s, true))) := by
  intro fuel
  induction fuel with
  | zero =>
    intro r T hle hfuel
    have heq : env.slotOf r.state = bound :=
      Nat.le_antisymm hle (Nat.le_of_sub_eq_zero (Nat.le_zero.mp hfuel))
    refine ⟨[], r, ?_, heq, sameConfig_refl _, ?_⟩
    · unfold slot_loop
      rw [if_neg (by simp [heq])]
    · rcases hpost : r.post_slot_hook with _ | hk <;>
        simp [postSlotReports, hpost, heq, slotRange]
  | succ f ih =>
    intro r T hle hfuel
    by_cases hlt : env.slotOf r.state < bound
    · obtain ⟨evs1, r1, hstep, hs1, hrep1⟩ :=
        slot_step_total_true env blocks i r T
      obtain ⟨hc1, -, hsome1, hnone1⟩ :=
        slot_step_ok_inv env blocks i _ r hstep
      have T1 : TotalEnv env r1 := T.carry hc1 hsome1 hnone1
      have hle1 : env.slotOf r1.state ≤ bound := by
        rw [hs1]
        exact hlt
      have hfuel1 : bound - env.slotOf r1.state ≤ f := by
        rw [hs1, ← Nat.sub_sub]
        exact Nat.sub_le_iff_le_add.mpr hfuel
      obtain ⟨evs2, r2, hloop, hs2, hc2, hrep2⟩ := ih r1 T1 hle1 hfuel1
      refine ⟨evs1 ++ evs2, r2, ?_, hs2, sameConfig_trans hc1 hc2, ?_⟩
      · conv_lhs => rw [slot_loop]
        rw [if_pos hlt, hstep]
        dsimp only
        rw [hloop]
      · rw [show postSlotReports (evs1 ++ evs2) =
            postSlotReports evs1 ++ postSlotReports evs2 from
            List.filterMap_append _ _ _]
        rw [hrep1, hrep2, hc1.2.2.2.2.2, hs1]
        rcases hpost : r.post_slot_hook with _ | hk
        · simp
        · have hpos : 0 < bound - env.slotOf r.state :=
            Nat.sub_pos_of_lt hlt
          have harr : bound - env.slotOf r.state =
              (bound - (env.slotOf r.state + 1)) + 1 := by
            rw [← Nat.sub_sub]
            exact (Nat.succ_pred_eq_of_pos hpos).symm
          rw [harr]
          simp [slotRange]
    · have heq : env.slotOf r.state = bound :=
        Nat.le_antisymm hle (Nat.le_of_not_lt hlt)
      refine ⟨[], r, ?_, heq, sameConfig_refl _, ?_⟩
      · unfold slot_loop
        rw [if_neg (by simp [heq])]
      · rcases hpost : r.post_slot_hook with _ | hk <;>
          simp [postSlotReports, hpost, heq, slotRange]

end Lemmas

end Replay

/-! ## Theorems for the claims -/

/-- C8: `is_valid_deposit_signature` fails with the `BadBlsBytes` invalidity
reason exactly when the raw key/signature bytes cannot be decoded into a
key, signature and signing message; with a decode in hand it fails with the
`BadSignature` invalidity reason exactly when cryptographic verification of
the signature over the signing message fails; otherwise it succeeds. -/
theorem is_valid_deposit_signature_spec (env : CryptoEnv) (dd : DepositData)
    (spec : ChainSpec) :
    (env.deposit_pubkey_signature_message dd spec = none →
      is_valid_deposit_signature env dd spec =
        .error (.Invalid .BadBlsBytes))
    ∧ (∀ pk sg m,
        env.deposit_pubkey_signature_message dd spec = some (pk, sg, m) →
        (env.bls_verify sg pk m = true →
          is_valid_deposit_signature env dd spec = .ok ())
        ∧ (env.bls_verify sg pk m = false →
          is_valid_deposit_signature env dd spec =
            .error (.Invalid .BadSignature))) := by
  refine ⟨fun h => ?_, fun pk sg m h => ⟨fun hv => ?_, fun hv => ?_⟩⟩
  · simp [is_valid_deposit_signature, h, DepositVerify.error]
  · simp [is_valid_deposit_signature, h, hv, DepositVerify.error]
  · simp [is_valid_deposit_signature, h, hv, DepositVerify.error]


/-- Witness for C8 at concrete inputs: one deposit per outcome class. -/
theorem is_valid_deposit_signature_spec_witness :
    is_valid_deposit_signature cenv dd_ok spec32 = .ok ()
    ∧ is_valid_deposit_signature cenv dd_badsig spec32 =
        .error (.Invalid .BadSignature)
    ∧ is_valid_deposit_signature cenv dd_badbytes spec32 =
        .error (.Invalid .BadBlsBytes) :=
  ⟨((is_valid_deposit_signature_spec cenv dd_ok spec32).2 3 3 7
      (by decide)).1 (by decide),
   ((is_valid_deposit_signature_spec cenv dd_badsig spec32).2 3 4 7
      (by decide)).2 (by decide),
   (is_valid_deposit_signature_spec cenv dd_badbytes spec32).1 (by decide)⟩

/-- C9 (amended): provided the configured deposit-contract tree depth plus
one does not overflow a `u64`, `verify_deposit_merkle_proof` hashes the
deposit's data into a leaf and checks its merkle proof against the state's
eth1 `deposit_root` with tree depth `deposit_contract_tree_depth + 1` and
the claimed index as position, succeeding exactly when the proof verifies
and failing with the `BadMerkleProof` invalidity reason otherwise. -/
theorem verify_deposit_merkle_proof_spec (env : CryptoEnv)
    (state : DepositVerify.BeaconState) (deposit : Deposit)
    (deposit_index : Nat) (spec : ChainSpec)
    (h : spec.deposit_contract_tree_depth + 1 < 2 ^ 64) :
    (env.verify_merkle_proof (env.tree_hash_root deposit.data) deposit.proof
        (spec.deposit_contract_tree_depth + 1) deposit_index
        state.eth1_data.deposit_root = true →
      verify_deposit_merkle_proof env state deposit deposit_index spec =
        .ok ())
    ∧ (env.verify_merkle_proof (env.tree_hash_root deposit.data) deposit.proof
        (spec.deposit_contract_tree_depth + 1) deposit_index
        state.eth1_data.deposit_root = false →
      verify_deposit_merkle_proof env state deposit deposit_index spec =
        .error (.Invalid .BadMerkleProof)) := by
  have h' : spec.deposit_contract_tree_depth + 1 < 18446744073709551616 := by
    calc spec.deposit_contract_tree_depth + 1 < 2 ^ 64 := h
    _ = 18446744073709551616 := by norm_num
  constructor <;> intro hv <;>
    simp [verify_deposit_merkle_proof, u64_safe_add, h', hv,
      DepositVerify.error]


/-- Witness for C9 at concrete inputs: with `cenv`'s merkle checker the leaf
is `2`, the index `5` and the depth `33`, matching root `40`; flipping the
root to `41` makes verification fail with `BadMerkleProof`. -/
theorem verify_deposit_merkle_proof_spec_witness :
    verify_deposit_merkle_proof cenv st_root8 dep_ok 5 spec32 = .ok ()
    ∧ verify_deposit_merkle_proof cenv
        { eth1_data := { deposit_root := 41 } } dep_ok 5 spec32 =
        .error (.Invalid .BadMerkleProof) :=
  ⟨(verify_deposit_merkle_proof_spec cenv st_root8 dep_ok 5 spec32
      (by decide)).1 (by decide),
   (verify_deposit_merkle_proof_spec cenv
      { eth1_data := { deposit_root := 41 } } dep_ok 5 spec32
      (by decide)).2 (by decide)⟩

/-- C1: `get_state_root` resolves through exactly three strategies, first
match winning: (1) a configured source is advanced past entries with slot
strictly below the target and an exact-slot entry is consumed and returned;
(2) otherwise, after the fallthrough (which never errors on a mere slot
mismatch and only advances the source), the previous block in the list is
used when it targets the current slot; (3) otherwise the root is recomputed
from the state.  Successful resolutions only ever consume the source from
the front (forward-only, never rewound). -/
theorem get_state_root_three_paths
    {St Sum σ β γ ε : Type} (env : Env St Sum σ β γ ε)
    (r : BlockReplayer St Sum ε) (blocks : List SignedBeaconBlock) (i : Nat) :
    (∀ l rt rest, r.state_root_iter = some l →
      find_root_in_iter (env.slotOf r.state) l = .ok (some rt, rest) →
      get_state_root env r blocks i =
        .ok (rt, .fromIter, { r with state_root_iter := some rest }) ∧
      rest <:+ l)
    ∧
    (∀ r', iterFallthrough env r r' → ∀ pb, 1 ≤ i →
      blocks[i - 1]? = some pb → pb.slot = env.slotOf r.state →
      get_state_root env r blocks i = .ok (pb.state_root, .fromPrevBlock, r'))
    ∧
    (∀ r', iterFallthrough env r r' →
      ¬ prevBlockHit blocks i (env.slotOf r.state) →
      get_state_root env r blocks i =
        (match env.update_tree_hash_cache r.state with
         | .error e => .error (env.injErr (.BeaconState e))
         | .ok (state_root, st) =>
           .ok (state_root, .computed,
             { r' with state := st, state_root_miss := true })))
    ∧
    (∀ rt p r' l l', get_state_root env r blocks i = .ok (rt, p, r') →
      r.state_root_iter = some l → r'.state_root_iter = some l' →
      l' <:+ l) := by
  refine ⟨?_, ?_, ?_, ?_⟩
  · intro l rt rest hl hf
    exact ⟨by simp [get_state_root, hl, hf],
      find_root_in_iter_suffix _ _ hf⟩
  · rintro r' (⟨hnone, rfl⟩ | ⟨l, rest, hl, hf, rfl⟩) pb h1 h2 h3
    · simp only [get_state_root, hnone]
      exact get_state_root_fallback_hit env _ blocks i _ pb h1 h2 h3
    · simp only [get_state_root, hl, hf]
      exact get_state_root_fallback_hit env _ blocks i _ pb h1 h2 h3
  · rintro r' (⟨hnone, rfl⟩ | ⟨l, rest, hl, hf, rfl⟩) hmiss
    · have hred : get_state_root env r' blocks i =
          get_state_root_fallback env r' blocks i (env.slotOf r'.state) := by
        unfold get_state_root
        rw [hnone]
      rw [hred]
      exact get_state_root_fallback_miss env r' blocks i _ hmiss
    · simp only [get_state_root, hl, hf]
      exact get_state_root_fallback_miss env _ blocks i _ hmiss
  · intro rt p r' l l' h hl hl'
    obtain ⟨-, -, -, hsome, -⟩ := get_state_root_ok_inv env r blocks i h
    obtain ⟨l'', hl'', hsuf⟩ := hsome l hl
    rw [hl''] at hl'
    cases hl'
    exact hsuf

/-- Witness for C1 at concrete inputs: the source holds an exact entry for
the current slot 5; path 1 consumes it and leaves the slot-7 entry. -/
theorem get_state_root_three_paths_witness :
    get_state_root Conc.env0 Conc.rIter [] 0 =
      .ok (105, .fromIter,
        { Conc.rIter with state_root_iter := some [.ok (107, 7)] })
    ∧ [Except.ok (107, 7)] <:+
        ([.ok (105, 5), .ok (107, 7)] :
          List (Except Nat (Replay.Hash256 × Slot))) :=
  (get_state_root_three_paths Conc.env0 Conc.rIter [] 0).1
    [.ok (105, 5), .ok (107, 7)] 105 [.ok (107, 7)] rfl rfl

/-- C10: an `Err` entry reached while the source scan searches for the
current slot is consumed and selected whatever its position among the
examined entries, `get_state_root` propagates it, and `apply_blocks` aborts
at once with that error, before any hook or transition runs. -/
theorem state_root_iter_error_aborts
    {St Sum σ β γ ε : Type} (env : Env St Sum σ β γ ε)
    (r : BlockReplayer St Sum ε) (blocks : List SignedBeaconBlock)
    (i : Nat) (fuel : Nat) (target : Option Slot)
    (pre tail : List (Except ε (Replay.Hash256 × Slot))) (e : ε)
    (hpre : ∀ x ∈ pre, ∃ rt s, x = Except.ok (rt, s) ∧ s < env.slotOf r.state)
    (hl : r.state_root_iter = some (pre ++ .error e :: tail)) :
    get_state_root env r blocks i = .error e
    ∧ (∀ b rest, blocks = b :: rest → env.slotOf r.state < b.slot →
        1 ≤ fuel → apply_blocks env fuel r blocks target = ([], .fail e)) := by
  have h0 : ∀ (bs : List SignedBeaconBlock) (j : Nat),
      get_state_root env r bs j = .error e := by
    intro bs j
    simp [get_state_root, hl,
      find_root_in_iter_error (env.slotOf r.state) e pre tail hpre]
  refine ⟨h0 blocks i, ?_⟩
  intro b rest hb hlt hfuel
  obtain ⟨f, rfl⟩ : ∃ f, fuel = f + 1 := ⟨fuel - 1, by omega⟩
  subst hb
  have hstep : slot_step env (b :: rest) 0
      (fun st => decide (env.slotOf st < b.slot)) r = ([], .fail e) := by
    simp [slot_step, h0]
  have hloop : slot_loop env (b :: rest) 0 b.slot
      (fun st => decide (env.slotOf st < b.slot)) (f + 1) r =
      ([], .fail e) := by
    simp [slot_loop, hlt, hstep]
  have hgo : apply_blocks_go env (f + 1) (b :: rest) r 0 (b :: rest) =
      ([], .fail e) := by
    have hcond : ¬ b.slot ≤ env.slotOf r.state :=
      fun hle => absurd (Nat.lt_of_lt_of_le hlt hle) (Nat.lt_irrefl _)
    simp [apply_blocks_go, hcond, hloop]
  simp [apply_blocks, hgo]

/-- Witness for C10 at concrete inputs: the source holds a stale slot-4
entry and then an `Err 99`; resolving slot 5 consumes both and the whole
apply aborts with error 99 and an empty trace. -/
theorem state_root_iter_error_aborts_witness :
    get_state_root Conc.env0 Conc.rErr [Conc.b7] 0 = .error 99
    ∧ apply_blocks Conc.env0 10 Conc.rErr [Conc.b7] (some 8) =
        ([], .fail 99) := by
  have h := state_root_iter_error_aborts Conc.env0 Conc.rErr [Conc.b7] 0 10
    (some 8) [.ok (104, 4)] [] 99
    (by
      intro x hx
      simp only [List.mem_singleton] at hx
      subst hx
      exact ⟨104, 4, rfl, by decide⟩)
    rfl
  exact ⟨h.1, h.2 Conc.b7 [] rfl (by decide) (by decide)⟩

/-- C2: a first block (index 0) whose slot does not exceed the state's slot
is skipped entirely — the iteration performs no slot advancement, never
reaches `per_block_processing` and fires no hook, leaving the replayer
untouched for the remaining blocks — and no event of the whole run refers
to block index 0. -/
theorem first_block_skipped
    {St Sum σ β γ ε : Type} (env : Env St Sum σ β γ ε) (fuel : Nat)
    (r : BlockReplayer St Sum ε) (b : SignedBeaconBlock)
    (rest : List SignedBeaconBlock) (target : Option Slot)
    (hskip : b.slot ≤ env.slotOf r.state) :
    apply_blocks_go env fuel (b :: rest) r 0 (b :: rest) =
      apply_blocks_go env fuel (b :: rest) r 1 rest
    ∧ (∀ evs out, apply_blocks env fuel r (b :: rest) target = (evs, out) →
        ∀ ev ∈ evs, ∀ j, eventBlockIndex ev = some j → 1 ≤ j) := by
  have h1 : apply_blocks_go env fuel (b :: rest) r 0 (b :: rest) =
      apply_blocks_go env fuel (b :: rest) r 1 rest := by
    conv_lhs => rw [apply_blocks_go]
    rw [if_pos ⟨rfl, hskip⟩]
  refine ⟨h1, ?_⟩
  intro evs out h ev hev j hj
  obtain ⟨evs1, out1, hgo, hev1⟩ :=
    apply_blocks_block_events env fuel r (b :: rest) target h ev hev j hj
  rw [h1] at hgo
  exact (apply_blocks_go_events env fuel (b :: rest) rest r 1 hgo).1
    ev hev1 j hj

/-- Witness for C2 at concrete inputs: block `b5` targets the state's own
slot 5, so the run over `[b5, b7]` equals the run over `[b7]` from index 1
and no trace event refers to index 0. -/
theorem first_block_skipped_witness :
    apply_blocks_go Conc.env0 10 [Conc.b5, Conc.b7] Conc.r5 0
      [Conc.b5, Conc.b7] =
      apply_blocks_go Conc.env0 10 [Conc.b5, Conc.b7] Conc.r5 1 [Conc.b7] :=
  (first_block_skipped Conc.env0 10 Conc.r5 Conc.b5 [Conc.b7] (some 8)
    (by decide)).1

/-- C4: starting from a clear miss flag, `state_root_miss` is set after a
successful apply exactly when some slot advancement of that call resolved
its root through path 3 (direct recomputation), as recorded by a
`computed`-path resolution event in the trace. -/
theorem state_root_miss_iff
    {St Sum σ β γ ε : Type} (env : Env St Sum σ β γ ε) (fuel : Nat)
    (r : BlockReplayer St Sum ε) (blocks : List SignedBeaconBlock)
    (target : Option Slot) (hmiss : r.state_root_miss = false) :
    ∀ evs r', apply_blocks env fuel r blocks target = (evs, .ok r') →
      (r'.state_root_miss = true ↔ evs.any isMissResolve = true) := by
  intro evs r' h
  obtain ⟨-, hm⟩ := apply_blocks_ok_inv env fuel r blocks target h
  rw [hm, hmiss]
  simp

/-- Witness for C4 at concrete inputs: the run over `[b5, b7]` with target
slot 8 recomputes the root at slot 6, and the flag is indeed set. -/
theorem state_root_miss_iff_witness :
    ∃ evs r', apply_blocks Conc.env0 10 Conc.r5 [Conc.b5, Conc.b7]
        (some 8) = (evs, .ok r')
      ∧ (r'.state_root_miss = true ↔ evs.any isMissResolve = true) :=
  ⟨_, _, rfl, state_root_miss_iff Conc.env0 10 Conc.r5 [Conc.b5, Conc.b7]
    (some 8) rfl _ _ rfl⟩

/-- C5: every `per_block_processing` call recorded during an apply uses the
replayer's signature strategy and, for block-root verification, the
explicit policy when configured and otherwise verify-true for indices 0
and 1 and verify-false from index 2 on; a freshly constructed replayer
defaults to bulk signature verification, full block-root verification, no
state-root source and no hooks. -/
theorem effective_block_root_decision
    {St Sum σ β γ ε : Type} (env : Env St Sum σ β γ ε) (fuel : Nat)
    (r : BlockReplayer St Sum ε) (blocks : List SignedBeaconBlock)
    (target : Option Slot) (s0 : St) :
    (∀ evs out, apply_blocks env fuel r blocks target = (evs, out) →
      ∀ j s strat dec c, Event.applyBlock j s strat dec c ∈ evs →
        strat = r.block_sig_strategy ∧
        dec = r.verify_block_root.getD
          (if j ≤ 1 then VerifyBlockRoot.True else VerifyBlockRoot.False))
    ∧ ((BlockReplayer.new s0 : BlockReplayer St Sum ε).block_sig_strategy =
          BlockSignatureStrategy.VerifyBulk
      ∧ (BlockReplayer.new s0 : BlockReplayer St Sum ε).verify_block_root =
          some VerifyBlockRoot.True
      ∧ (BlockReplayer.new s0 : BlockReplayer St Sum ε).state_root_iter = none
      ∧ (BlockReplayer.new s0 : BlockReplayer St Sum ε).pre_block_hook = none
      ∧ (BlockReplayer.new s0 : BlockReplayer St Sum ε).post_block_hook = none
      ∧ (BlockReplayer.new s0 : BlockReplayer St Sum ε).pre_slot_hook = none
      ∧ (BlockReplayer.new s0 : BlockReplayer St Sum ε).post_slot_hook = none
      ∧ (BlockReplayer.new s0 : BlockReplayer St Sum ε).state_root_miss =
          false) := by
  constructor
  · intro evs out h j s strat dec c hm
    obtain ⟨evs1, out1, hgo, hm1⟩ :=
      apply_blocks_block_events env fuel r blocks target h _ hm j rfl
    exact (apply_blocks_go_events env fuel blocks blocks r 0 hgo).2
      j s strat dec c hm1
  · exact ⟨rfl, rfl, rfl, rfl, rfl, rfl, rfl, rfl⟩

/-- Witness for C5 at concrete inputs: the run over `[b5, b7]` applies the
block at index 1 with the default bulk strategy and a verify-true
decision. -/
theorem effective_block_root_decision_witness :
    BlockSignatureStrategy.VerifyBulk = Conc.r5.block_sig_strategy
    ∧ VerifyBlockRoot.True = Conc.r5.verify_block_root.getD
        (if (1 : Nat) ≤ 1 then VerifyBlockRoot.True
          else VerifyBlockRoot.False) :=
  (effective_block_root_decision Conc.env0 10 Conc.r5 [Conc.b5, Conc.b7]
      (some 8) 0).1 _ _ rfl 1 7 BlockSignatureStrategy.VerifyBulk
    VerifyBlockRoot.True (replay_ctxt Conc.b7) (by decide)

/-- C6: every failure — of root resolution, a hook, slot processing or
block processing, all surfacing as a failing slot step, slot loop or block
step — aborts the apply at once with exactly the trace accumulated so far:
a failing slot loop or block step ends the block loop with no further
blocks touched, a failing block loop skips the target phase, a failing
slot step ends its loop; on success the engine itself is handed back. -/
theorem apply_blocks_error_propagation
    {St Sum σ β γ ε : Type} (env : Env St Sum σ β γ ε) (fuel : Nat)
    (r : BlockReplayer St Sum ε) (blocks : List SignedBeaconBlock)
    (i : Nat) (b : SignedBeaconBlock) (rest : List SignedBeaconBlock)
    (target : Option Slot) :
    (∀ evs e, ¬ (i = 0 ∧ b.slot ≤ env.slotOf r.state) →
      slot_loop env blocks i b.slot
        (fun st => decide (env.slotOf st < b.slot)) fuel r = (evs, .fail e) →
      apply_blocks_go env fuel blocks r i (b :: rest) = (evs, .fail e))
    ∧
    (∀ evs r1 evs2 e, ¬ (i = 0 ∧ b.slot ≤ env.slotOf r.state) →
      slot_loop env blocks i b.slot
        (fun st => decide (env.slotOf st < b.slot)) fuel r = (evs, .ok r1) →
      block_step env i b r1 = (evs2, .fail e) →
      apply_blocks_go env fuel blocks r i (b :: rest) =
        (evs ++ evs2, .fail e))
    ∧
    (∀ evs e, apply_blocks_go env fuel blocks r 0 blocks = (evs, .fail e) →
      apply_blocks env fuel r blocks target = (evs, .fail e))
    ∧
    (∀ evs e bound skippedOf f, env.slotOf r.state < bound →
      slot_step env blocks i skippedOf r = (evs, .fail e) →
      slot_loop env blocks i bound skippedOf (f + 1) r = (evs, .fail e))
    ∧
    (∀ evs r1, apply_blocks_go env fuel blocks r 0 blocks = (evs, .ok r1) →
      target = none → apply_blocks env fuel r blocks target = (evs, .ok r1)) := by
  refine ⟨?_, ?_, ?_, ?_, ?_⟩
  · intro evs e hcond hloop
    conv_lhs => rw [apply_blocks_go]
    rw [if_neg hcond, hloop]
  · intro evs r1 evs2 e hcond hloop hbstep
    conv_lhs => rw [apply_blocks_go]
    rw [if_neg hcond, hloop]
    dsimp only
    rw [hbstep]
  · intro evs e hgo
    unfold apply_blocks
    rw [hgo]
  · intro evs e bound skippedOf f hlt hstep
    conv_lhs => rw [slot_loop]
    rw [if_pos hlt, hstep]
  · intro evs r1 hgo htarget
    subst htarget
    unfold apply_blocks
    rw [hgo]

/-- Witness for C6 at concrete inputs: a successful block loop with no
target slot returns the built engine unchanged. -/
theorem apply_blocks_error_propagation_witness :
    ∃ evs r1, apply_blocks_go Conc.env0 10 [Conc.b5, Conc.b7] Conc.r5 0
        [Conc.b5, Conc.b7] = (evs, .ok r1)
      ∧ apply_blocks Conc.env0 10 Conc.r5 [Conc.b5, Conc.b7] none =
          (evs, .ok r1) :=
  ⟨_, _, rfl, (apply_blocks_error_propagation Conc.env0 10 Conc.r5
    [Conc.b5, Conc.b7] 0 Conc.b5 [Conc.b7] none).2.2.2.2 _ _ rfl rfl⟩

/-- C3 (amended): with an empty block list and a target slot `T` at or
above the state's slot, under the claim's assumption that each
`per_slot_processing` call succeeds and advances the slot by exactly one
(with the other external calls succeeding and slot-preserving and the
source free of `Err` entries), `apply_blocks` succeeds with a state at
exactly slot `T`; every post-slot report carries `skipped = true`, and a
present post-slot hook receives exactly one report per advanced slot,
`T - slot` of them in ascending order. -/
theorem apply_blocks_empty_target
    {St Sum σ β γ ε : Type} (env : Env St Sum σ β γ ε) (fuel : Nat)
    (r : BlockReplayer St Sum ε) (T : Slot) (Te : TotalEnv env r)
    (hslot : env.slotOf r.state ≤ T)
    (hfuel : T - env.slotOf r.state ≤ fuel) :
    ∃ evs r', apply_blocks env fuel r [] (some T) = (evs, .ok r') ∧
      env.slotOf r'.state = T ∧
      (∀ pr ∈ postSlotReports evs, pr.2 = true) ∧
      (∀ hk, r.post_slot_hook = some hk →
        postSlotReports evs =
          (slotRange (env.slotOf r.state + 1) (T - env.slotOf r.state)).map
            (fun s => (s, true))) := by
  obtain ⟨evs, r', hloop, hs, -, hrep⟩ :=
    slot_loop_total_true env [] 0 T fuel r Te hslot hfuel
  refine ⟨evs, r', ?_, hs, ?_, ?_⟩
  · unfold apply_blocks
    simp only [apply_blocks_go, List.length_nil]
    rw [hloop]
    rfl
  · intro pr hpr
    rcases hpost : r.post_slot_hook with _ | hk
    · rw [hpost] at hrep
      rw [hrep] at hpr
      cases hpr
    · rw [hpost] at hrep
      rw [hrep] at hpr
      obtain ⟨s, -, rfl⟩ := List.mem_map.mp hpr
      rfl
  · intro hk hpost
    rw [hpost] at hrep
    exact hrep

/-- Counterexample to C3 as stated: in the concrete environment whose
`per_slot_processing` always succeeds and advances the slot by exactly one
(the claim's parenthetical assumption), applying an empty block list with
target slot 3 to a state already at slot 5 leaves the slot at 5, not 3 —
the target-phase `while` loop never runs a state downwards. -/
theorem apply_blocks_empty_target_counterexample :
    (∀ st root, ∃ st' sum,
      Conc.env0.per_slot_processing st root = Except.ok (st', sum) ∧
      Conc.env0.slotOf st' = Conc.env0.slotOf st + 1)
    ∧ (∃ evs r', apply_blocks Conc.env0 10 Conc.r5 [] (some 3) =
        (evs, .ok r') ∧ ¬ Conc.env0.slotOf r'.state = 3) := by
  constructor
  · intro st root
    exact ⟨st + 1, none, rfl, rfl⟩
  · exact ⟨[], Conc.r5, rfl, by decide⟩

/-- The concrete environment `env0` and hook-carrying replayer `rHook`
satisfy the totality discipline. -/
theorem env0_rHook_total : TotalEnv Conc.env0 Conc.rHook :=
  ⟨fun st _ => ⟨st + 1, none, rfl, rfl⟩,
    fun st => ⟨1000 + st, st, rfl, rfl⟩,
    fun _ hh => Option.noConfusion hh,
    fun hk hh => by
      cases hh
      exact fun st sum b => ⟨st, rfl, rfl⟩,
    fun _ hl => Option.noConfusion hl⟩

/-- Witness for C3 (amended) at concrete inputs: from slot 5 to target 8
with a post-slot hook present, the hook sees exactly
`[(6, true), (7, true), (8, true)]` and the final slot is 8. -/
theorem apply_blocks_empty_target_witness :
    ∃ evs r', apply_blocks Conc.env0 10 Conc.rHook [] (some 8) =
        (evs, .ok r')
      ∧ Conc.env0.slotOf r'.state = 8
      ∧ postSlotReports evs = [(6, true), (7, true), (8, true)] := by
  obtain ⟨evs, r', heq, hs, -, hrep⟩ :=
    apply_blocks_empty_target Conc.env0 10 Conc.rHook 8 env0_rHook_total
      (by decide) (by decide)
  refine ⟨evs, r', heq, hs, ?_⟩
  rw [hrep _ rfl]
  rfl

/-- C7: under the slot discipline the claim assumes — `per_slot_processing`
advances the slot by exactly one when it succeeds, and hooks (and the other
external calls) leave it unchanged — every slot observed during an
`apply_blocks` run, in trace order and including the final state handed
back by `into_state`, is non-decreasing starting from the initial state's
slot. -/
theorem slot_monotone
    {St Sum σ β γ ε : Type} (env : Env St Sum σ β γ ε) (fuel : Nat)
    (r : BlockReplayer St Sum ε) (blocks : List SignedBeaconBlock)
    (target : Option Slot) (D : SlotDiscipline env r) :
    ∀ evs out, apply_blocks env fuel r blocks target = (evs, out) →
      monoFrom (env.slotOf r.state)
        (traceSlots evs ++ outSlots env out) = true
      ∧ (∀ r', out = .ok r' →
          env.slotOf r.state ≤ env.slotOf r'.into_state) := by
  intro evs out h
  have hmono : monoFrom (env.slotOf r.state)
      (traceSlots evs ++ outSlots env out) = true := by
    unfold apply_blocks at h
    split at h
    · rename_i evs1 r1 hgo
      obtain ⟨hcG, -, -, -⟩ :=
        apply_blocks_go_ok_inv env fuel blocks blocks r 0 hgo
      split at h
      · cases h
        exact apply_blocks_go_mono env fuel blocks blocks r 0 D hgo
      · rename_i target1
        rcases hrec : slot_loop env blocks blocks.length target1
            (fun _ => true) fuel r1 with ⟨evs2, out2⟩
        rw [hrec] at h
        dsimp only at h
        rw [Prod.mk.injEq] at h
        obtain ⟨rfl, h2⟩ := h
        subst h2
        have hm1 := apply_blocks_go_mono env fuel blocks blocks r 0 D hgo
        have hm2 := slot_loop_mono env blocks blocks.length target1 _ fuel
          r1 (D.transfer hcG) hrec
        rw [traceSlots_append, List.append_assoc]
        exact monoFrom_glue (by simpa [outSlots] using hm1) hm2
    · exact apply_blocks_go_mono env fuel blocks blocks r 0 D h
  refine ⟨hmono, ?_⟩
  intro r' hout
  subst hout
  exact monoFrom_all hmono _ (by simp [outSlots, BlockReplayer.into_state])

/-- The concrete environment `env0` and hook-free replayer `r5` satisfy the
slot discipline. -/
theorem env0_r5_discipline : SlotDiscipline Conc.env0 Conc.r5 :=
  ⟨fun _ _ _ _ h => by cases h; rfl,
    fun _ _ _ _ _ _ h => by cases h; rfl,
    fun _ _ _ h => by cases h; rfl,
    fun _ hh => Option.noConfusion hh,
    fun _ hh => Option.noConfusion hh,
    fun _ hh => Option.noConfusion hh,
    fun _ hh => Option.noConfusion hh⟩

/-- Witness for C7 at concrete inputs: the slots observed while replaying
`[b5, b7]` to target slot 8 form a non-decreasing chain from slot 5. -/
theorem slot_monotone_witness :
    monoFrom (Conc.env0.slotOf Conc.r5.state)
      (traceSlots
          (apply_blocks Conc.env0 10 Conc.r5 [Conc.b5, Conc.b7] (some 8)).1
        ++ outSlots Conc.env0
          (apply_blocks Conc.env0 10 Conc.r5 [Conc.b5, Conc.b7]
            (some 8)).2) = true :=
  (slot_monotone Conc.env0 10 Conc.r5 [Conc.b5, Conc.b7] (some 8)
    env0_r5_discipline _ _ rfl).1


/-- Counterexample to C9 as stated: with the maximal `u64` tree depth
`2 ^ 64 - 1`, `safe_add` overflows and the function fails with an
arithmetic-overflow error — neither success nor a `BadMerkleProof`-class
error — even though the claim, quantified over every chain configuration,
allows only those two results (here the merkle checker accepts this very
proof at depth `2 ^ 64`, so the claim demands success). -/
theorem verify_deposit_merkle_proof_overflow_counterexample :
    (cenv.verify_merkle_proof (cenv.tree_hash_root dep_ok.data) dep_ok.proof
        (specMax.deposit_contract_tree_depth + 1) 0
        stBig.eth1_data.deposit_root = true)
    ∧ verify_deposit_merkle_proof cenv stBig dep_ok 0 specMax =
        .error (.Arith .Overflow) := by
  constructor
  · decide
  · rfl

end LighthouseProof
